import Mathlib

/-!
Verification of the tcm-uploader publish pipeline.

The development embeds the pipeline of `src/uploader` (response cleaning,
JSON decoding, record formatting, validation gating, publishing
precondition) as executable Lean definitions over `List Char` strings, and
proves or refutes the specification claims about them.

Python strings are modelled as `List Char`.  Python `None`-able values are
`Option`; a Python `dict` decoded from JSON is the inductive `Json`; an
`AttributeError` raised inside the formatter's `try` block is `Except.error`.
`json.loads` (Python standard library, strict mode) is modelled by the
executable recursive-descent decoder `json_loads`; serialization of a
document is modelled by the newline-separated printer `json_dumps`
(`json.dumps` with `indent=0`: every element separator and every closing
brace/bracket of a non-empty container sits at a line break, string
contents escaped).
-/

/-- Python strings, modelled as lists of characters. -/
abbrev Str := List Char

/-- Whitespace characters recognised by Python's `str.strip()` (ASCII set). -/
def pyWs (c : Char) : Bool :=
  c = ' ' || c = '\t' || c = '\n' || c = '\r' || c = Char.ofNat 11 || c = Char.ofNat 12

/-- Python `str.strip()`: drop whitespace from both ends. -/
def pyStrip (s : Str) : Str :=
  ((s.dropWhile pyWs).reverse.dropWhile pyWs).reverse

/-- ASCII lower-casing of one character, as `str.lower()` acts on ASCII. -/
def lowerChar (c : Char) : Char :=
  if 'A' ≤ c ∧ c ≤ 'Z' then Char.ofNat (c.toNat + 32) else c

/-- Python `str.lower()` (ASCII model). -/
def pyLower (s : Str) : Str := s.map lowerChar

/-- The constant `config.DEFAULT_TITLE`. -/
def DEFAULT_TITLE : Str := "Trinity Catholic Media".data

/-- The constant `config.DEFAULT_DESCRIPTION`. -/
def DEFAULT_DESCRIPTION : Str :=
  ("Stay inspired daily! Follow our WhatsApp channel for the latest Bible verses: "
    ++ "https://whatsapp.com/channel/0029VbAhLis0rGiVQd0HSw03").data

/-- The constant `config.WHATSAPP_LINK`: the fixed two-line promotional suffix. -/
def WHATSAPP_LINK : Str :=
  ("\n\nStay inspired daily! Follow our WhatsApp channel for the latest Bible verses: "
    ++ "https://whatsapp.com/channel/0029VbAhLis0rGiVQd0HSw03").data

/-- The branding suffix appended by `format_title`. -/
def TITLE_SUFFIX : Str := " | Trinity Catholic Media".data

/-! ## JSON documents

`json.loads` produces nested Python values; the mutual inductive `Json`
models them (numbers restricted to integers, which covers every document
appearing in this development). -/

mutual
inductive Json where
  | null : Json
  | bool (b : Bool) : Json
  | num (n : Int) : Json
  | str (s : Str) : Json
  | arr (xs : JsonList) : Json
  | obj (xs : JsonObj) : Json
deriving DecidableEq
inductive JsonList where
  | nil : JsonList
  | cons (hd : Json) (tl : JsonList) : JsonList
deriving DecidableEq
inductive JsonObj where
  | nil : JsonObj
  | cons (k : Str) (v : Json) (tl : JsonObj) : JsonObj
deriving DecidableEq
end

/-- Python truthiness of a decoded JSON value. -/
def jTruthy : Json → Bool
  | .null => false
  | .bool b => b
  | .num n => n != 0
  | .str s => !s.isEmpty
  | .arr .nil => false
  | .arr (.cons _ _) => true
  | .obj .nil => false
  | .obj (.cons _ _ _) => true

/-- Python truthiness of a possibly-`None` value. -/
def pyTruthy : Option Json → Bool
  | none => false
  | some j => jTruthy j

/-- Lookup in a decoded JSON object; a later duplicate key wins, as in the
dict built by `json.loads`. -/
def objGet : JsonObj → Str → Option Json
  | .nil, _ => none
  | .cons k v tl, key =>
    match objGet tl key with
    | some r => some r
    | none => if k = key then some v else none

/-- Embedding of `dict.get(key)`: absent key and stored JSON `null` both reach Python as
`None`. -/
def fieldGet (o : JsonObj) (key : Str) : Option Json :=
  match objGet o key with
  | some .null => none
  | x => x

/-! ## Response cleaning (`clean_json_string`) -/

/-- Scanning step of `str.replace`: `fuel` only bounds the number of steps
(each step consumes at least one character, so `s.length` steps always
complete the scan). -/
def replaceAllGo (pat rep : Str) : Nat → Str → Str
  | _, [] => []
  | 0, s => s
  | fuel + 1, c :: rest =>
    if pat ≠ [] && pat.isPrefixOf (c :: rest) then
      rep ++ replaceAllGo pat rep fuel ((c :: rest).drop pat.length)
    else
      c :: replaceAllGo pat rep fuel rest

/-- Python `str.replace(pat, rep)`: replace every non-overlapping occurrence,
scanning left to right.  (For the empty pattern, which never occurs in this
development, it returns the string unchanged.) -/
def replaceAll (pat rep s : Str) : Str := replaceAllGo pat rep s.length s

/-- One iteration of the fence-marker loop in `clean_json_string`: strip the
marker from the front if present, then from the back if present. -/
def stripMarker (marker s : Str) : Str :=
  let s1 := if marker.isPrefixOf s then s.drop marker.length else s
  if marker.isSuffixOf s1 then s1.take (s1.length - marker.length) else s1

/-- Embedding of `data_formatter.clean_json_string`: strip, remove the two fence markers
from either end, strip again, then delete the comma of every
comma-newline-closer sequence. -/
def clean_json_string (s : Str) : Str :=
  let c0 := pyStrip s
  let c1 := stripMarker "```json".data c0
  let c2 := stripMarker "```".data c1
  let c3 := pyStrip c2
  let c4 := replaceAll (',' :: '\n' :: '}' :: []) ('\n' :: '}' :: []) c3
  replaceAll (',' :: '\n' :: ']' :: []) ('\n' :: ']' :: []) c4

/-! ## JSON decoding (model of `json.loads`, strict mode) -/

/-- JSON whitespace accepted between tokens by the decoder. -/
def jsonWs (c : Char) : Bool := c = ' ' || c = '\t' || c = '\n' || c = '\r'

/-- Skip JSON whitespace. -/
def skipWs (s : Str) : Str := s.dropWhile jsonWs

/-- Decimal digit test. -/
def isDig (c : Char) : Bool := '0' ≤ c && c ≤ '9'

/-- Value of a hexadecimal digit. -/
def hexVal (c : Char) : Option Nat :=
  if '0' ≤ c ∧ c ≤ '9' then some (c.toNat - 48)
  else if 'a' ≤ c ∧ c ≤ 'f' then some (c.toNat - 87)
  else if 'A' ≤ c ∧ c ≤ 'F' then some (c.toNat - 55)
  else none

/-- Decoding of a single-character escape sequence. -/
def escDecode (c : Char) : Option Char :=
  if c = '"' then some '"'
  else if c = '\\' then some '\\'
  else if c = '/' then some '/'
  else if c = 'b' then some (Char.ofNat 8)
  else if c = 'f' then some (Char.ofNat 12)
  else if c = 'n' then some '\n'
  else if c = 'r' then some '\r'
  else if c = 't' then some '\t'
  else none

/-- Decode a JSON string body after the opening quote, strict mode: a raw
control character (code below 32, e.g. a raw newline) is rejected, exactly
as `json.loads` rejects it. -/
def parseStrBody : Str → Option (Str × Str)
  | [] => none
  | c :: rest =>
    if c = '"' then some ([], rest)
    else if c = '\\' then
      match rest with
      | 'u' :: h1 :: h2 :: h3 :: h4 :: rest4 =>
        match hexVal h1, hexVal h2, hexVal h3, hexVal h4 with
        | some a, some b, some c2, some d =>
          (parseStrBody rest4).map
            (fun p => (Char.ofNat (4096 * a + 256 * b + 16 * c2 + d) :: p.1, p.2))
        | _, _, _, _ => none
      | e :: rest2 =>
        match escDecode e with
        | some d => (parseStrBody rest2).map (fun p => (d :: p.1, p.2))
        | none => none
      | [] => none
    else if c.toNat < 32 then none
    else (parseStrBody rest).map (fun p => (c :: p.1, p.2))

/-- Numeric value of a digit string, most significant first. -/
def digitsToNat (ds : Str) : Nat :=
  Nat.ofDigits 10 ((ds.map (fun c => c.toNat - 48)).reverse)

/-- Decode an integer literal (optional minus sign, then digits). -/
def parseNum (cs : Str) : Option (Int × Str) :=
  match cs with
  | [] => none
  | c :: rest =>
    if c = '-' then
      let ds := rest.takeWhile isDig
      if ds.isEmpty then none
      else some (-(digitsToNat ds : Int), rest.dropWhile isDig)
    else
      let ds := (c :: rest).takeWhile isDig
      if ds.isEmpty then none
      else some ((digitsToNat ds : Int), (c :: rest).dropWhile isDig)

mutual
/-- Decode one JSON value; `fuel` bounds the recursion depth. -/
def parseVal : Nat → Str → Option (Json × Str)
  | 0, _ => none
  | fuel + 1, cs =>
    match skipWs cs with
    | [] => none
    | c :: rest =>
      if c = 'n' then
        match rest with
        | 'u' :: 'l' :: 'l' :: r => some (.null, r)
        | _ => none
      else if c = 't' then
        match rest with
        | 'r' :: 'u' :: 'e' :: r => some (.bool true, r)
        | _ => none
      else if c = 'f' then
        match rest with
        | 'a' :: 'l' :: 's' :: 'e' :: r => some (.bool false, r)
        | _ => none
      else if c = '"' then
        (parseStrBody rest).map (fun p => (.str p.1, p.2))
      else if c = '[' then
        match skipWs rest with
        | ']' :: r => some (.arr .nil, r)
        | cs' => (parseArrItems fuel cs').map (fun p => (.arr p.1, p.2))
      else if c = '{' then
        match skipWs rest with
        | '}' :: r => some (.obj .nil, r)
        | cs' => (parseObjItems fuel cs').map (fun p => (.obj p.1, p.2))
      else if c = '-' || isDig c then
        (parseNum (c :: rest)).map (fun p => (.num p.1, p.2))
      else none
/-- Decode the comma-separated elements of a non-empty array, up to and
including the closing bracket. -/
def parseArrItems : Nat → Str → Option (JsonList × Str)
  | 0, _ => none
  | fuel + 1, cs => do
    let (v, r) ← parseVal fuel cs
    match skipWs r with
    | ',' :: r2 => do
      let (tl, r3) ← parseArrItems fuel r2
      pure (.cons v tl, r3)
    | ']' :: r2 => pure (.cons v .nil, r2)
    | _ => none
/-- Decode the members of a non-empty object, up to and including the
closing brace. -/
def parseObjItems : Nat → Str → Option (JsonObj × Str)
  | 0, _ => none
  | fuel + 1, cs =>
    match skipWs cs with
    | '"' :: r => do
      let (k, r2) ← parseStrBody r
      match skipWs r2 with
      | ':' :: r3 => do
        let (v, r4) ← parseVal fuel r3
        match skipWs r4 with
        | ',' :: r5 => do
          let (tl, r6) ← parseObjItems fuel r5
          pure (.cons k v tl, r6)
        | '}' :: r5 => pure (.cons k v .nil, r5)
        | _ => none
      | _ => none
    | _ => none
end

/-- Model of `json.loads`: decode one value and require only whitespace
after it.  The fuel `s.length + 1` dominates the nesting depth of any
decodable input. -/
def json_loads (s : Str) : Option Json :=
  match parseVal (s.length + 1) s with
  | some (v, rest) => if (skipWs rest).isEmpty then some v else none
  | none => none

/-- Embedding of `data_formatter.parse_json_safely`: `json.loads` with the decode error
turned into an explicit failure value (`st.error` is display-only). -/
def parse_json_safely (s : Str) : Option Json := json_loads s

/-! ## JSON serialization (model of `json.dumps`, newline-separated form) -/

/-- Character of a decimal or lower-case hexadecimal digit value. -/
def hexDig (n : Nat) : Char :=
  if n < 10 then Char.ofNat (48 + n) else Char.ofNat (87 + n)

/-- Escape one character of a string value: quotes, backslashes and every
control character (in particular a raw newline) are escaped, so the
serialized form of a string literal contains no raw control characters. -/
def escChar (c : Char) : Str :=
  if c = '"' then '\\' :: '"' :: []
  else if c = '\\' then '\\' :: '\\' :: []
  else if c = '\n' then '\\' :: 'n' :: []
  else if c = '\r' then '\\' :: 'r' :: []
  else if c = '\t' then '\\' :: 't' :: []
  else if c = Char.ofNat 8 then '\\' :: 'b' :: []
  else if c = Char.ofNat 12 then '\\' :: 'f' :: []
  else if c.toNat < 32 then
    '\\' :: 'u' :: '0' :: '0' :: hexDig (c.toNat / 16) :: hexDig (c.toNat % 16) :: []
  else [c]

/-- Escape a whole string value. -/
def esc : Str → Str
  | [] => []
  | c :: rest => escChar c ++ esc rest

/-- Character of a digit value below ten. -/
def digitChar (d : Nat) : Char := Char.ofNat (48 + d)

/-- Digit-producing loop for `natStr`; `fuel` only bounds the number of
divisions by ten (`n` itself always suffices). -/
def natStrGo : Nat → Nat → Str
  | 0, _ => []
  | _, 0 => []
  | fuel + 1, n => natStrGo fuel (n / 10) ++ [digitChar (n % 10)]

/-- Decimal representation of a natural number, most significant digit
first. -/
def natStr (n : Nat) : Str :=
  if n = 0 then ['0'] else natStrGo n n

/-- Decimal representation of an integer. -/
def intStr (n : Int) : Str :=
  if n < 0 then '-' :: natStr (-n).toNat else natStr n.toNat

mutual
/-- Serialize one JSON value.  Non-empty containers put every element and
every closing brace/bracket at a line break. -/
def ppV : Json → Str
  | .null => 'n' :: 'u' :: 'l' :: 'l' :: []
  | .bool true => 't' :: 'r' :: 'u' :: 'e' :: []
  | .bool false => 'f' :: 'a' :: 'l' :: 's' :: 'e' :: []
  | .num n => intStr n
  | .str s => '"' :: (esc s ++ '"' :: [])
  | .arr .nil => '[' :: ']' :: []
  | .arr (.cons j tl) => '[' :: '\n' :: (ppA (.cons j tl) ++ '\n' :: ']' :: [])
  | .obj .nil => '{' :: '}' :: []
  | .obj (.cons k v tl) => '{' :: '\n' :: (ppO (.cons k v tl) ++ '\n' :: '}' :: [])
/-- Serialize array elements, separated by comma-newline. -/
def ppA : JsonList → Str
  | .nil => []
  | .cons j .nil => ppV j
  | .cons j (.cons j2 tl) => ppV j ++ ',' :: '\n' :: ppA (.cons j2 tl)
/-- Serialize object members, separated by comma-newline. -/
def ppO : JsonObj → Str
  | .nil => []
  | .cons k v .nil => '"' :: (esc k ++ '"' :: ':' :: ' ' :: ppV v)
  | .cons k v (.cons k2 v2 tl) =>
      '"' :: (esc k ++ '"' :: ':' :: ' ' :: (ppV v ++ ',' :: '\n' :: ppO (.cons k2 v2 tl)))
end

/-- Serialize a JSON document. -/
def json_dumps (d : Json) : Str := ppV d

/-- Insert a comma immediately before the last newline of a string: for a
serialized non-empty container this puts a trailing comma at the end of the
final element's line, just before the closing brace/bracket's line. -/
def insRevHelper : Str → Str
  | [] => []
  | c :: rest => if c = '\n' then c :: ',' :: rest else c :: insRevHelper rest

/-- Insert a comma immediately before the last newline of a string. -/
def insertCommaBeforeLastNewline (s : Str) : Str :=
  (insRevHelper s.reverse).reverse

/-- A non-empty array or object document. -/
def isNonemptyContainer : Json → Bool
  | .arr (.cons _ _) => true
  | .obj (.cons _ _ _) => true
  | _ => false

/-- Executable substring test. -/
def hasSub (pat : Str) : Str → Bool
  | [] => pat.isEmpty
  | c :: rest => pat.isPrefixOf (c :: rest) || hasSub pat rest

mutual
/-- Some string value of the document contains the given pattern. -/
def strValHasV (pat : Str) : Json → Bool
  | .str s => hasSub pat s
  | .arr xs => strValHasA pat xs
  | .obj xs => strValHasO pat xs
  | _ => false
/-- Some string value of an element contains the given pattern. -/
def strValHasA (pat : Str) : JsonList → Bool
  | .nil => false
  | .cons j tl => strValHasV pat j || strValHasA pat tl
/-- Some string value of a member contains the given pattern. -/
def strValHasO (pat : Str) : JsonObj → Bool
  | .nil => false
  | .cons _ v tl => strValHasV pat v || strValHasO pat tl
end

/-! ## Record formatting (`data_formatter`) -/

/-- The decoded five-key record built by `ensure_required_fields`: every
required key present, absent source keys carried as `None`. -/
structure ExtractedFields where
  title : Option Json
  malayalam_verse : Option Json
  english_translation : Option Json
  alt_text_source : Option Json
  confidence_level : Option Json
deriving DecidableEq

/-- Embedding of `ensure_required_fields`: a decoded mapping keeps the five required
keys (missing ones as `None`); any non-mapping input yields the empty dict,
modelled as `none`. -/
def ensure_required_fields (j : Json) : Option ExtractedFields :=
  match j with
  | .obj o =>
    some
      { title := fieldGet o "title".data
        malayalam_verse := fieldGet o "extracted_bible_verse_malayalam".data
        english_translation := fieldGet o "bible_verse_english_translation".data
        alt_text_source := fieldGet o "alternative_text_for_main_content".data
        confidence_level := fieldGet o "confidence_level".data }
  | _ => none

/-- Embedding of `format_title`: branded title for a truthy source title, the default
otherwise; `.strip()` on a truthy non-string raises (`Except.error`). -/
def format_title (t : Option Json) : Except Unit Str :=
  if pyTruthy t then
    match t with
    | some (.str s) => .ok (pyStrip s ++ TITLE_SUFFIX)
    | _ => .error ()
  else .ok DEFAULT_TITLE

/-- Embedding of `format_description`: composed verse text plus the fixed promotional
suffix when both parts are truthy, the default description otherwise (the
missing-verse warning is display-only). -/
def format_description (m e : Option Json) : Except Unit Str :=
  if !pyTruthy m || !pyTruthy e then .ok DEFAULT_DESCRIPTION
  else
    match m, e with
    | some (.str sm), some (.str se) =>
      .ok (pyStrip sm ++ "\n\nEnglish: ".data ++ (pyStrip se ++ WHATSAPP_LINK))
    | _, _ => .error ()

/-- Embedding of `format_alt_text`: trimmed alt text for a truthy source value, empty
string otherwise. -/
def format_alt_text (a : Option Json) : Except Unit Str :=
  if pyTruthy a then
    match a with
    | some (.str s) => .ok (pyStrip s)
    | _ => .error ()
  else .ok []

/-- The confidence entry of the built dict:
`data.get("confidence_level", "low").lower()`.  After
`ensure_required_fields` the key is always present, so the `"low"` default
is dead; the stored value is lower-cased if it is a string and `.lower()`
raises on `None` or any non-string. -/
def lower_confidence (c : Option Json) : Except Unit Str :=
  match c with
  | some (.str s) => .ok (pyLower s)
  | _ => .error ()

/-- The formatted publish record: the dict literal built by
`parse_and_format_gemini_output` has exactly these four keys. -/
structure FormattedData where
  title : Str
  description : Str
  alt_text : Str
  confidence_level : Str
deriving DecidableEq

/-- The dict-building `try` block of `parse_and_format_gemini_output`: any
raised error is caught and turned into the empty-dict failure value
(`none`). -/
def build_formatted_data (f : ExtractedFields) : Option FormattedData :=
  match format_title f.title,
    format_description f.malayalam_verse f.english_translation,
    format_alt_text f.alt_text_source,
    lower_confidence f.confidence_level with
  | .ok t, .ok d, .ok a, .ok c =>
    some { title := t, description := d, alt_text := a, confidence_level := c }
  | _, _, _, _ => none

/-- Embedding of `parse_and_format_gemini_output`.  Empty input, decode failure and falsy
decode results give the empty dict (`none`).  A truthy non-mapping result
passes the empty dict through the builder, where every `get` misses: the
defaults and — here only — the live `"low"` confidence default apply. -/
def parse_and_format_gemini_output (s : Str) : Option FormattedData :=
  if s.isEmpty then none
  else
    match parse_json_safely (clean_json_string s) with
    | none => none
    | some j =>
      if !jTruthy j then none
      else
        match ensure_required_fields j with
        | some f => build_formatted_data f
        | none =>
          some
            { title := DEFAULT_TITLE
              description := DEFAULT_DESCRIPTION
              alt_text := []
              confidence_level := "low".data }

/-! ## Validation gate and publisher (`validators`, `ui_components`,
`pinterest_api`) -/

/-- A Pinterest data dict as the validators and the publisher receive it:
each key possibly absent, values strings. -/
structure PinDict where
  title : Option Str
  description : Option Str
  alt_text : Option Str
  confidence_level : Option Str
deriving DecidableEq

/-- The per-field dict returned by `validate_pinterest_data`:
`bool(data.get(field, '').strip())` for each required field. -/
structure ValidationResults where
  title : Bool
  description : Bool
  alt_text : Bool
deriving DecidableEq

/-- Embedding of `validators.validate_pinterest_data`. -/
def validate_pinterest_data (d : PinDict) : ValidationResults :=
  { title := !(pyStrip (d.title.getD [])).isEmpty
    description := !(pyStrip (d.description.getD [])).isEmpty
    alt_text := !(pyStrip (d.alt_text.getD [])).isEmpty }

/-- Embedding of `validators.validate_all_pinterest_data`. -/
def validate_all_pinterest_data (d : PinDict) : Bool :=
  (validate_pinterest_data d).title && (validate_pinterest_data d).description
    && (validate_pinterest_data d).alt_text

/-- Embedding of `validators.validate_confidence_level`. -/
def validate_confidence_level (c : Str) : Bool :=
  (pyLower c == "high".data) || (pyLower c == "medium".data)

/-- The publish gate of `render_upload_button`: confidence taken from the
dict with default `"low"`, combined with the all-fields check. -/
def upload_gate (d : PinDict) : Bool :=
  validate_confidence_level (d.confidence_level.getD "low".data)
    && validate_all_pinterest_data d

/-- Truthiness of `formatted_data.get(field)` in `upload_to_pinterest`:
absent key gives `None` (falsy); an empty string is falsy. -/
def truthyField (o : Option Str) : Bool :=
  match o with
  | none => false
  | some s => !s.isEmpty

/-- Embedding of `pinterest_api.upload_to_pinterest`, with the two external effects as
oracles: `imgRead` is the result of reading the image bytes, `respOk` the
HTTP response status.  Returns `(success, networkRequestMade)`, following
the source's control flow: the missing-fields check fails before the image
is read, the image-read failure fails before the POST. -/
def upload_to_pinterest (formatted_data : PinDict) (imgRead : Option (List Nat))
    (respOk : Bool) : Bool × Bool :=
  if !(truthyField formatted_data.title && truthyField formatted_data.description
      && truthyField formatted_data.alt_text) then
    (false, false)
  else
    match imgRead with
    | none => (false, false)
    | some _ => (respOk, true)

/-- Embedding of `DataFormatter.validate_and_clean_data`. -/
def validate_and_clean_data (d : PinDict) : FormattedData :=
  { title := pyStrip (d.title.getD [])
    description := pyStrip (d.description.getD [])
    alt_text := pyStrip (d.alt_text.getD [])
    confidence_level := pyLower (d.confidence_level.getD "low".data) }

deriving instance DecidableEq for Except

/-! ## Auxiliary definitions for the serializer proofs -/

/-- Characters that can start a serialized JSON value. -/
def vStart (c : Char) : Bool :=
  c = 'n' || c = 't' || c = 'f' || c = '"' || c = '[' || c = '{' || c = '-' || isDig c

/-- Characters that can end a serialized JSON value. -/
def vEnd (c : Char) : Bool :=
  c = 'l' || c = 'e' || c = '"' || c = ']' || c = '}' || isDig c

mutual
/-- Decoder fuel sufficient for a value. -/
def szV : Json → Nat
  | .null => 1
  | .bool _ => 1
  | .num _ => 1
  | .str _ => 1
  | .arr xs => 1 + szA xs
  | .obj xs => 1 + szO xs
/-- Decoder fuel sufficient for array elements. -/
def szA : JsonList → Nat
  | .nil => 0
  | .cons j tl => 1 + szV j + szA tl
/-- Decoder fuel sufficient for object members. -/
def szO : JsonObj → Nat
  | .nil => 0
  | .cons _ v tl => 1 + szV v + szO tl
end

/-- Local three-character window check: the position is not the start of a
comma-newline-`c3` sequence. -/
def tripleOkF (c3 : Char) (c : Char) (s : Str) : Bool :=
  match s with
  | d :: e :: _ => !(c = ',' && d = '\n' && e = c3)
  | _ => true

/-- The string contains no comma-newline-`c3` sequence. -/
def cleanFor (c3 : Char) : Str → Bool
  | [] => true
  | c :: s => tripleOkF c3 c s && cleanFor c3 s

/-- What follows the first member of a serialized non-empty object. -/
def tailO : JsonObj → Str → Str
  | .nil, rest => '\n' :: '}' :: rest
  | .cons k2 v2 tl2, rest => ',' :: '\n' :: (ppO (.cons k2 v2 tl2) ++ '\n' :: '}' :: rest)

/-- Tail of a serialized object member list after its opening quote. -/
def ppOtail (k : Str) (v : Json) (tl : JsonObj) : Str :=
  match tl with
  | .nil => esc k ++ '"' :: ':' :: ' ' :: ppV v
  | .cons k2 v2 tl2 =>
    esc k ++ '"' :: ':' :: ' ' :: (ppV v ++ ',' :: '\n' :: ppO (.cons k2 v2 tl2))

/-! ## Basic lemmas -/

/-- Here `isEmpty` is `false` exactly on non-empty lists. -/
theorem isEmpty_false_iff {α : Type} (l : List α) : l.isEmpty = false ↔ l ≠ [] := by
  cases l <;> simp

/-- A successful `format_title` never returns the empty string. -/
theorem format_title_ok_ne_nil {t : Option Json} {v : Str}
    (h : format_title t = .ok v) : v ≠ [] := by
  unfold format_title at h
  by_cases hp : pyTruthy t = true
  · rw [if_pos hp] at h
    match t with
    | some (.str s) =>
      simp only [Except.ok.injEq] at h
      subst h
      simp [TITLE_SUFFIX]
    | none | some .null | some (.bool _) | some (.num _) | some (.arr _) | some (.obj _) =>
      simp at h
  · rw [if_neg hp] at h
    simp only [Except.ok.injEq] at h
    subst h
    decide

/-- A successful `format_description` never returns the empty string. -/
theorem format_description_ok_ne_nil {m e : Option Json} {v : Str}
    (h : format_description m e = .ok v) : v ≠ [] := by
  unfold format_description at h
  by_cases hp : (!pyTruthy m || !pyTruthy e) = true
  · rw [if_pos hp] at h
    simp only [Except.ok.injEq] at h
    subst h
    decide
  · rw [if_neg hp] at h
    match m, e with
    | some (.str sm), some (.str se) =>
      simp only [Except.ok.injEq] at h
      subst h
      simp [WHATSAPP_LINK]
    | none, _ | some .null, _ | some (.bool _), _ | some (.num _), _ | some (.arr _), _
    | some (.obj _), _ => simp at h
    | some (.str _), none | some (.str _), some .null | some (.str _), some (.bool _)
    | some (.str _), some (.num _) | some (.str _), some (.arr _)
    | some (.str _), some (.obj _) => simp at h

/-! ## Claim theorems: gate, publisher, field formatting -/

/-- Claim C1: the publish gate (`validate_all_pinterest_data` and
`validate_confidence_level` both true) passes exactly when title,
description and alt text are non-empty after trimming and the
lower-cased confidence is `high` or `medium`; every other confidence
value, `low` included, fails it. -/
theorem gate_correctness (d : PinDict) :
    (validate_all_pinterest_data d = true ∧
      validate_confidence_level (d.confidence_level.getD "low".data) = true) ↔
    (pyStrip (d.title.getD []) ≠ [] ∧ pyStrip (d.description.getD []) ≠ [] ∧
      pyStrip (d.alt_text.getD []) ≠ [] ∧
      (pyLower (d.confidence_level.getD "low".data) = "high".data ∨
        pyLower (d.confidence_level.getD "low".data) = "medium".data)) := by
  simp only [validate_all_pinterest_data, validate_pinterest_data,
    validate_confidence_level, Bool.and_eq_true, Bool.or_eq_true, beq_iff_eq,
    Bool.not_eq_true', isEmpty_false_iff]
  tauto

/-- Claim C5: a record with any of title, description or alt text missing
or empty makes `upload_to_pinterest` fail immediately, with no network
request made (second component `false`), whatever the image-read and HTTP
oracles would return. -/
theorem publisher_precondition (d : PinDict) (img : Option (List Nat)) (respOk : Bool)
    (h : d.title = none ∨ d.title = some [] ∨ d.description = none ∨
      d.description = some [] ∨ d.alt_text = none ∨ d.alt_text = some []) :
    upload_to_pinterest d img respOk = (false, false) := by
  unfold upload_to_pinterest
  rcases h with h | h | h | h | h | h <;> simp [truthyField, h]

/-- Witness for C5: empty alt text alone forces the missing-fields failure
with no network call, even with a readable image and a successful response
oracle. -/
theorem publisher_precondition_witness :
    upload_to_pinterest
      { title := some "t".data, description := some "d".data,
        alt_text := some [], confidence_level := some "high".data }
      (some [1, 2]) true = (false, false) :=
  publisher_precondition _ _ _ (Or.inr (Or.inr (Or.inr (Or.inr (Or.inr rfl)))))

/-- Claim C6: with both verse parts present and non-empty,
`format_description` returns the trimmed Malayalam text, the separator,
the trimmed English text and the fixed promotional suffix, verbatim; with
either part missing or empty it returns the fixed default description. -/
theorem description_composition (m e : Str) (hm : m ≠ []) (he : e ≠ []) :
    format_description (some (.str m)) (some (.str e)) =
      .ok (pyStrip m ++ "\n\nEnglish: ".data ++ (pyStrip e ++ WHATSAPP_LINK)) ∧
    ∀ m' e' : Option Json,
      (m' = none ∨ m' = some (.str []) ∨ e' = none ∨ e' = some (.str [])) →
      format_description m' e' = .ok DEFAULT_DESCRIPTION := by
  constructor
  · simp [format_description, pyTruthy, jTruthy, hm, he]
  · intro m' e' h
    rcases h with h | h | h | h <;>
      simp [format_description, h, pyTruthy, jTruthy]

set_option maxRecDepth 4000 in
/-- Witness for C6, at the spec's own example: Malayalam `ആഹ്ലാദിക്കുക` and
English `Rejoice` compose to the exact advertised description. -/
theorem description_composition_witness :
    format_description (some (.str "ആഹ്ലാദിക്കുക".data)) (some (.str "Rejoice".data)) =
      .ok ("ആഹ്ലാദിക്കുക\n\nEnglish: Rejoice".data ++ WHATSAPP_LINK) := by
  rw [(description_composition "ആഹ്ലാദിക്കുക".data "Rejoice".data
    (by decide) (by decide)).1]
  decide

/-- Counterexample for C8: a whitespace-only source title is truthy, so
`format_title` strips it and brands the empty remainder — yielding
`" | Trinity Catholic Media"`, not the brand default the claim promises. -/
theorem title_whitespace_counterexample :
    format_title (some (.str " ".data)) = .ok " | Trinity Catholic Media".data ∧
    " | Trinity Catholic Media".data ≠ DEFAULT_TITLE := by
  decide

/-- Claim C8 (amended): a non-empty source title — whitespace-only
included — is trimmed and branded; an absent or empty source title yields
the brand default. -/
theorem title_formatting (t : Str) :
    (t ≠ [] → format_title (some (.str t)) = .ok (pyStrip t ++ TITLE_SUFFIX)) ∧
    format_title (some (.str [])) = .ok DEFAULT_TITLE ∧
    format_title none = .ok DEFAULT_TITLE := by
  refine ⟨fun ht => ?_, by decide, by decide⟩
  simp [format_title, pyTruthy, jTruthy, ht]

/-- Witness for C8 (amended): a padded title is trimmed and branded. -/
theorem title_formatting_witness :
    format_title (some (.str "  John 3:16 ".data)) =
      .ok "John 3:16 | Trinity Catholic Media".data := by
  rw [(title_formatting "  John 3:16 ".data).1 (by decide)]
  decide

/-- A record built successfully by the formatter has non-empty title and
description (a default is always substituted). -/
theorem build_formatted_data_some {f : ExtractedFields} {r : FormattedData}
    (h : build_formatted_data f = some r) : r.title ≠ [] ∧ r.description ≠ [] := by
  cases ht : format_title f.title with
  | error e => simp [build_formatted_data, ht] at h
  | ok t =>
    cases hd : format_description f.malayalam_verse f.english_translation with
    | error e => simp [build_formatted_data, ht, hd] at h
    | ok dsc =>
      cases ha : format_alt_text f.alt_text_source with
      | error e => simp [build_formatted_data, ht, hd, ha] at h
      | ok a =>
        cases hc : lower_confidence f.confidence_level with
        | error e => simp [build_formatted_data, ht, hd, ha, hc] at h
        | ok c =>
          simp only [build_formatted_data, ht, hd, ha, hc, Option.some.injEq] at h
          rw [← h]
          exact ⟨format_title_ok_ne_nil ht, format_description_ok_ne_nil hd⟩

/-- Counterexample for C2: a record produced by the pipeline from a
decoded mapping whose confidence is `"Certain"` carries confidence
`"certain"`, which is none of the three enumerated values — the
unrecognized value is preserved, not degraded to `"low"`. -/
theorem confidence_enumeration_counterexample :
    (parse_and_format_gemini_output "\x7b\"confidence_level\": \"Certain\"\x7d".data).map
        (fun r => r.confidence_level) = some "certain".data ∧
    "certain".data ≠ "high".data ∧ "certain".data ≠ "medium".data ∧
    "certain".data ≠ "low".data := by
  decide

/-- Claim C2 (amended): every record the formatter actually produces
carries the lower-casing of the source's string confidence value, whatever
that value is; a missing (or non-string) source confidence makes the
builder raise and return the empty failure value instead of a record. -/
theorem confidence_propagation (f : ExtractedFields) (r : FormattedData)
    (h : build_formatted_data f = some r) :
    ∃ s, f.confidence_level = some (.str s) ∧ r.confidence_level = pyLower s := by
  cases hcf : f.confidence_level with
  | none => simp [build_formatted_data, lower_confidence, hcf] at h
  | some j =>
    cases j with
    | str s =>
      refine ⟨s, rfl, ?_⟩
      cases ht : format_title f.title with
      | error e => simp [build_formatted_data, ht] at h
      | ok t =>
        cases hd : format_description f.malayalam_verse f.english_translation with
        | error e => simp [build_formatted_data, ht, hd] at h
        | ok dsc =>
          cases ha : format_alt_text f.alt_text_source with
          | error e => simp [build_formatted_data, ht, hd, ha] at h
          | ok a =>
            simp only [build_formatted_data, ht, hd, ha, hcf, lower_confidence,
              Option.some.injEq] at h
            rw [← h]
    | null => simp [build_formatted_data, lower_confidence, hcf] at h
    | bool b => simp [build_formatted_data, lower_confidence, hcf] at h
    | num n => simp [build_formatted_data, lower_confidence, hcf] at h
    | arr xs => simp [build_formatted_data, lower_confidence, hcf] at h
    | obj xs => simp [build_formatted_data, lower_confidence, hcf] at h

/-- Witness for C2 (amended): a mixed-case confidence `"HIGH"` is carried
through as `"high"`. -/
theorem confidence_propagation_witness :
    ∃ s, (ExtractedFields.mk none none none none (some (.str "HIGH".data))).confidence_level
        = some (.str s) ∧
      (FormattedData.mk DEFAULT_TITLE DEFAULT_DESCRIPTION [] "high".data).confidence_level
        = pyLower s :=
  confidence_propagation (ExtractedFields.mk none none none none (some (.str "HIGH".data)))
    (FormattedData.mk DEFAULT_TITLE DEFAULT_DESCRIPTION [] "high".data) (by decide)

/-- C3: after `ensure_required_fields` the confidence key is always
present, so the `"low"` default of `data.get("confidence_level", "low")` is
dead; on the valid mapping `{"title": "Test"}` the stored `None` reaches
`.lower()`, the `AttributeError` is caught, and the pipeline returns the
empty failure value instead of a record with confidence `"low"`. -/
theorem missing_confidence_returns_failure :
    json_loads "\x7b\"title\": \"Test\"\x7d".data =
      some (.obj (.cons "title".data (.str "Test".data) .nil)) ∧
    lower_confidence none = .error () ∧
    parse_and_format_gemini_output "\x7b\"title\": \"Test\"\x7d".data = none := by
  decide

/-- C4: the formatter's failure branch is reachable from `ExtractedFields`
inputs — any record whose confidence field is absent (stored `None`) makes
the builder return the empty failure value, even with every other field a
present string. -/
theorem formatter_error_branch_reachable :
    build_formatted_data
        (ExtractedFields.mk none none none none none) = none ∧
    build_formatted_data
        (ExtractedFields.mk (some (.str "t".data)) (some (.str "m".data))
          (some (.str "e".data)) (some (.str "a".data)) none) = none := by
  decide

/-- Claim C9: for every raw input string, the pipeline returns the empty
failure value or a four-field record whose title and description are
non-empty (the alt text is a possibly-empty string by construction). -/
theorem output_shape (s : Str) :
    parse_and_format_gemini_output s = none ∨
    ∃ r, parse_and_format_gemini_output s = some r ∧ r.title ≠ [] ∧ r.description ≠ [] := by
  unfold parse_and_format_gemini_output
  by_cases hs : s.isEmpty
  · left
    simp [hs]
  · rw [if_neg hs]
    cases hj : parse_json_safely (clean_json_string s) with
    | none => left; rfl
    | some j =>
      dsimp only
      by_cases ht : jTruthy j
      · rw [if_neg (by simp [ht])]
        cases he : ensure_required_fields j with
        | none =>
          right
          exact ⟨_, rfl, by decide, by decide⟩
        | some f =>
          cases hb : build_formatted_data f with
          | none =>
            left
            dsimp only
            exact hb
          | some r =>
            right
            exact ⟨r, by dsimp only; exact hb, (build_formatted_data_some hb).1,
              (build_formatted_data_some hb).2⟩
      · left
        rw [if_pos (by simp [Bool.not_eq_true'] at ht ⊢; exact ht)]

/-! ## Number printing and decoding agree -/

/-- Code of a printed digit. -/
theorem digitChar_toNat {d : Nat} (h : d < 10) : (digitChar d).toNat = 48 + d := by
  interval_cases d <;> decide

/-- A printed digit satisfies the decoder's digit test. -/
theorem isDig_digitChar {d : Nat} (h : d < 10) : isDig (digitChar d) = true := by
  interval_cases d <;> decide

/-- The digit loop agrees with `Nat.digits` whenever the fuel dominates. -/
theorem natStrGo_eq : ∀ fuel n, n ≤ fuel →
    natStrGo fuel n = ((Nat.digits 10 n).map digitChar).reverse := by
  intro fuel
  induction fuel with
  | zero =>
    intro n hn
    interval_cases n
    simp [natStrGo]
  | succ f ih =>
    intro n hn
    cases n with
    | zero => simp [natStrGo]
    | succ m =>
      have hdiv : (m + 1) / 10 ≤ f := by
        have := Nat.div_lt_self (Nat.succ_pos m) (show 1 < 10 by norm_num)
        omega
      rw [show natStrGo (f + 1) (m + 1) =
          natStrGo f ((m + 1) / 10) ++ [digitChar ((m + 1) % 10)] from rfl,
        ih _ hdiv, Nat.digits_def' (show 1 < 10 by norm_num) (Nat.succ_pos m)]
      simp

/-- Here `natStr` agrees with `Nat.digits` on positive input. -/
theorem natStr_eq {n : Nat} (h : n ≠ 0) :
    natStr n = ((Nat.digits 10 n).map digitChar).reverse := by
  rw [natStr, if_neg h]
  exact natStrGo_eq n n le_rfl

/-- A printed natural number is never the empty string. -/
theorem natStr_ne_nil (n : Nat) : natStr n ≠ [] := by
  by_cases h : n = 0
  · subst h; decide
  · rw [natStr_eq h]
    simp [Nat.digits_ne_nil_iff_ne_zero.mpr h]

/-- Every character of a printed natural number is a digit. -/
theorem mem_natStr_isDig {n : Nat} {c : Char} (h : c ∈ natStr n) : isDig c = true := by
  by_cases h0 : n = 0
  · subst h0
    simp [natStr] at h
    subst h
    decide
  · rw [natStr_eq h0] at h
    simp only [List.mem_reverse, List.mem_map] at h
    obtain ⟨d, hd, rfl⟩ := h
    exact isDig_digitChar (Nat.digits_lt_base (by norm_num) hd)

/-- Decoding a printed natural number recovers it. -/
theorem digitsToNat_natStr (n : Nat) : digitsToNat (natStr n) = n := by
  by_cases h0 : n = 0
  · subst h0; decide
  · rw [natStr_eq h0, digitsToNat]
    rw [List.map_reverse, List.reverse_reverse, List.map_map]
    have hcongr : ∀ d ∈ Nat.digits 10 n, ((fun c => c.toNat - 48) ∘ digitChar) d = id d := by
      intro d hd
      have := digitChar_toNat (Nat.digits_lt_base (by norm_num) hd)
      simp [Function.comp, this]
    rw [List.map_congr_left hcongr, List.map_id, Nat.ofDigits_digits]

/-- Here `takeWhile` runs through a block that satisfies the predicate. -/
theorem takeWhile_append_all {f : Char → Bool} {x : Str} (h : ∀ c ∈ x, f c = true)
    (y : Str) : (x ++ y).takeWhile f = x ++ y.takeWhile f := by
  induction x with
  | nil => simp
  | cons c t ih =>
    simp [List.takeWhile_cons, h c (by simp), ih (fun d hd => h d (by simp [hd]))]

/-- Here `dropWhile` runs through a block that satisfies the predicate. -/
theorem dropWhile_append_all {f : Char → Bool} {x : Str} (h : ∀ c ∈ x, f c = true)
    (y : Str) : (x ++ y).dropWhile f = y.dropWhile f := by
  induction x with
  | nil => simp
  | cons c t ih =>
    simp [List.dropWhile_cons, h c (by simp), ih (fun d hd => h d (by simp [hd]))]

/-- The continuation after a printed token must not begin with a digit. -/
def noDigHead (y : Str) : Prop := ∀ c, y.head? = some c → isDig c = false

/-- Here `takeWhile` stops immediately on a non-digit head. -/
theorem takeWhile_noDigHead {y : Str} (h : noDigHead y) : y.takeWhile isDig = [] := by
  cases y with
  | nil => rfl
  | cons c t => simp [List.takeWhile_cons, h c rfl]

/-- Here `dropWhile` keeps a string whose head is not a digit. -/
theorem dropWhile_noDigHead {y : Str} (h : noDigHead y) : y.dropWhile isDig = y := by
  cases y with
  | nil => rfl
  | cons c t => simp [List.dropWhile_cons, h c rfl]

/-- A digit character is not a minus sign. -/
theorem isDig_ne_minus {c : Char} (h : isDig c = true) : c ≠ '-' := by
  intro hc
  subst hc
  simp [isDig] at h

/-- Decoding a printed integer recovers it and leaves the continuation. -/
theorem parseNum_intStr (n : Int) {y : Str} (hy : noDigHead y) :
    parseNum (intStr n ++ y) = some (n, y) := by
  have hdig : ∀ m : Nat, ∀ c ∈ natStr m, isDig c = true := fun m c hc => mem_natStr_isDig hc
  by_cases hn : n < 0
  · rw [intStr, if_pos hn]
    show parseNum ('-' :: (natStr (-n).toNat ++ y)) = _
    rw [parseNum, if_pos rfl]
    rw [takeWhile_append_all (hdig _), takeWhile_noDigHead hy, List.append_nil,
      dropWhile_append_all (hdig _), dropWhile_noDigHead hy]
    have hne : (natStr (-n).toNat).isEmpty = false := by
      rw [isEmpty_false_iff]
      exact natStr_ne_nil _
    rw [if_neg (by simp [hne]), digitsToNat_natStr]
    have : ((-n).toNat : Int) = -n := Int.toNat_of_nonneg (by omega)
    rw [this]
    simp
  · rw [intStr, if_neg hn]
    obtain ⟨c, t, hct⟩ : ∃ c t, natStr n.toNat = c :: t := by
      cases h : natStr n.toNat with
      | nil => exact absurd h (natStr_ne_nil _)
      | cons c t => exact ⟨c, t, rfl⟩
    have hcd : isDig c = true := mem_natStr_isDig (by rw [hct]; simp)
    rw [hct]
    show parseNum (c :: (t ++ y)) = _
    rw [parseNum, if_neg (isDig_ne_minus hcd)]
    have hall : ∀ d ∈ c :: t, isDig d = true := by
      intro d hd
      exact mem_natStr_isDig (by rw [hct]; exact hd)
    rw [show c :: (t ++ y) = (c :: t) ++ y from rfl,
      takeWhile_append_all hall, takeWhile_noDigHead hy, List.append_nil,
      dropWhile_append_all hall, dropWhile_noDigHead hy]
    rw [if_neg (by simp), ← hct, digitsToNat_natStr]
    have : (n.toNat : Int) = n := Int.toNat_of_nonneg (by omega)
    rw [this]

/-! ## String escaping and decoding agree -/

/-- Hex digits survive the print/decode round trip. -/
theorem hexVal_hexDig {k : Nat} (h : k < 16) : hexVal (hexDig k) = some k := by
  interval_cases k <;> decide

/-- Decoding an escaped string body recovers the original characters and
leaves the continuation after the closing quote. -/
theorem parseStrBody_esc (s : Str) : ∀ rest : Str,
    parseStrBody (esc s ++ '"' :: rest) = some (s, rest) := by
  induction s with
  | nil =>
    intro rest
    show parseStrBody ('"' :: rest) = some ([], rest)
    rw [parseStrBody.eq_def]
    simp
  | cons c t ih =>
    intro rest
    by_cases h1 : c = '"'
    · subst h1
      simp [esc, escChar, parseStrBody, escDecode, ih]
    · by_cases h2 : c = '\\'
      · subst h2
        simp [esc, escChar, parseStrBody, escDecode, ih]
      · by_cases h3 : c = '\n'
        · subst h3
          simp [esc, escChar, parseStrBody, escDecode, ih]
        · by_cases h4 : c = '\r'
          · subst h4
            simp [esc, escChar, parseStrBody, escDecode, ih]
          · by_cases h5 : c = '\t'
            · subst h5
              simp [esc, escChar, parseStrBody, escDecode, ih]
            · by_cases h6 : c = Char.ofNat 8
              · subst h6
                simp [esc, escChar, parseStrBody, escDecode, ih]
              · by_cases h7 : c = Char.ofNat 12
                · subst h7
                  simp [esc, escChar, parseStrBody, escDecode, ih]
                · by_cases h8 : c.toNat < 32
                  · have hesc : escChar c = '\\' :: 'u' :: '0' :: '0' ::
                        hexDig (c.toNat / 16) :: hexDig (c.toNat % 16) :: [] := by
                      rw [escChar, if_neg h1, if_neg h2, if_neg h3, if_neg h4, if_neg h5,
                        if_neg h6, if_neg h7, if_pos h8]
                    have e0 : hexVal '0' = some 0 := by decide
                    have ehi : hexVal (hexDig (c.toNat / 16)) = some (c.toNat / 16) :=
                      hexVal_hexDig (by omega)
                    have elo : hexVal (hexDig (c.toNat % 16)) = some (c.toNat % 16) :=
                      hexVal_hexDig (Nat.mod_lt _ (by norm_num))
                    have harith : 4096 * 0 + 256 * 0 + 16 * (c.toNat / 16) + c.toNat % 16
                        = c.toNat := by omega
                    show parseStrBody ((escChar c ++ esc t) ++ '"' :: rest) = _
                    rw [hesc]
                    simp only [List.cons_append, List.nil_append]
                    simp [parseStrBody, e0, ehi, elo, ih, harith, Char.ofNat_toNat]
                    rw [show 16 * (c.toNat / 16) + c.toNat % 16 = c.toNat from
                      Nat.div_add_mod c.toNat 16, Char.ofNat_toNat]
                  · have hesc : escChar c = [c] := by
                      rw [escChar, if_neg h1, if_neg h2, if_neg h3, if_neg h4, if_neg h5,
                        if_neg h6, if_neg h7, if_neg h8]
                    show parseStrBody ((escChar c ++ esc t) ++ '"' :: rest) = _
                    rw [hesc]
                    show parseStrBody (c :: (esc t ++ '"' :: rest)) = _
                    rw [parseStrBody.eq_def]
                    simp [h1, h2, h8, ih]

/-! ## Head and last characters of serialized values -/

/-- A digit character is none of the special structural characters. -/
theorem isDig_ne {c : Char} (h : isDig c = true) :
    c ≠ 'n' ∧ c ≠ 't' ∧ c ≠ 'f' ∧ c ≠ '"' ∧ c ≠ '[' ∧ c ≠ '{' ∧ c ≠ '}' ∧ c ≠ ']' ∧
    c ≠ '`' ∧ c ≠ ',' ∧ c ≠ '\n' ∧ jsonWs c = false ∧ pyWs c = false := by
  refine ⟨fun e => absurd (e ▸ h) (by decide), fun e => absurd (e ▸ h) (by decide),
    fun e => absurd (e ▸ h) (by decide), fun e => absurd (e ▸ h) (by decide),
    fun e => absurd (e ▸ h) (by decide), fun e => absurd (e ▸ h) (by decide),
    fun e => absurd (e ▸ h) (by decide), fun e => absurd (e ▸ h) (by decide),
    fun e => absurd (e ▸ h) (by decide), fun e => absurd (e ▸ h) (by decide),
    fun e => absurd (e ▸ h) (by decide), ?_, ?_⟩
  · have h1 : c ≠ ' ' := fun e => absurd (e ▸ h) (by decide)
    have h2 : c ≠ '\t' := fun e => absurd (e ▸ h) (by decide)
    have h3 : c ≠ '\n' := fun e => absurd (e ▸ h) (by decide)
    have h4 : c ≠ '\r' := fun e => absurd (e ▸ h) (by decide)
    simp [jsonWs, h1, h2, h3, h4]
  · have h1 : c ≠ ' ' := fun e => absurd (e ▸ h) (by decide)
    have h2 : c ≠ '\t' := fun e => absurd (e ▸ h) (by decide)
    have h3 : c ≠ '\n' := fun e => absurd (e ▸ h) (by decide)
    have h4 : c ≠ '\r' := fun e => absurd (e ▸ h) (by decide)
    have h5 : c ≠ Char.ofNat 11 := fun e => absurd (e ▸ h) (by decide)
    have h6 : c ≠ Char.ofNat 12 := fun e => absurd (e ▸ h) (by decide)
    simp [pyWs, h1, h2, h3, h4, h5, h6]

/-- A value-start character is not whitespace, a closer, a backtick or a
newline. -/
theorem vStart_facts {c : Char} (h : vStart c = true) :
    jsonWs c = false ∧ pyWs c = false ∧ c ≠ '}' ∧ c ≠ ']' ∧ c ≠ '`' := by
  simp only [vStart, Bool.or_eq_true, decide_eq_true_eq, or_assoc] at h
  rcases h with h | h | h | h | h | h | h | h
  · subst h; exact ⟨by decide, by decide, by decide, by decide, by decide⟩
  · subst h; exact ⟨by decide, by decide, by decide, by decide, by decide⟩
  · subst h; exact ⟨by decide, by decide, by decide, by decide, by decide⟩
  · subst h; exact ⟨by decide, by decide, by decide, by decide, by decide⟩
  · subst h; exact ⟨by decide, by decide, by decide, by decide, by decide⟩
  · subst h; exact ⟨by decide, by decide, by decide, by decide, by decide⟩
  · subst h; exact ⟨by decide, by decide, by decide, by decide, by decide⟩
  · obtain ⟨-, -, -, -, -, -, h7, h8, h9, -, -, h12, h13⟩ := isDig_ne h
    exact ⟨h12, h13, h7, h8, h9⟩

/-- A value-end character is not a comma, a newline, whitespace or a
backtick. -/
theorem vEnd_facts {c : Char} (h : vEnd c = true) :
    c ≠ ',' ∧ c ≠ '\n' ∧ jsonWs c = false ∧ pyWs c = false ∧ c ≠ '`' := by
  simp only [vEnd, Bool.or_eq_true, decide_eq_true_eq, or_assoc] at h
  rcases h with h | h | h | h | h | h
  · subst h; exact ⟨by decide, by decide, by decide, by decide, by decide⟩
  · subst h; exact ⟨by decide, by decide, by decide, by decide, by decide⟩
  · subst h; exact ⟨by decide, by decide, by decide, by decide, by decide⟩
  · subst h; exact ⟨by decide, by decide, by decide, by decide, by decide⟩
  · subst h; exact ⟨by decide, by decide, by decide, by decide, by decide⟩
  · obtain ⟨-, -, -, -, -, -, -, -, h9, h10, h11, h12, h13⟩ := isDig_ne h
    exact ⟨h10, h11, h12, h13, h9⟩

/-- The head character of a printed integer. -/
theorem intStr_head (n : Int) :
    ∃ c t, intStr n = c :: t ∧ (c = '-' ∨ isDig c = true) := by
  by_cases hn : n < 0
  · exact ⟨'-', natStr (-n).toNat, by rw [intStr, if_pos hn], Or.inl rfl⟩
  · rw [intStr, if_neg hn]
    cases h : natStr n.toNat with
    | nil => exact absurd h (natStr_ne_nil _)
    | cons c t =>
      exact ⟨c, t, rfl, Or.inr (mem_natStr_isDig (by rw [h]; simp))⟩

/-- The head character of a serialized value starts a value. -/
theorem ppV_head (d : Json) : ∃ c t, ppV d = c :: t ∧ vStart c = true := by
  cases d with
  | null => exact ⟨'n', _, rfl, by decide⟩
  | bool b => cases b with
    | true => exact ⟨'t', _, rfl, by decide⟩
    | false => exact ⟨'f', _, rfl, by decide⟩
  | num n =>
    obtain ⟨c, t, hct, hc⟩ := intStr_head n
    refine ⟨c, t, hct, ?_⟩
    rcases hc with h | h
    · subst h; decide
    · simp [vStart, h]
  | str s => exact ⟨'"', _, rfl, by decide⟩
  | arr xs => cases xs with
    | nil => exact ⟨'[', _, rfl, by decide⟩
    | cons j tl => exact ⟨'[', _, rfl, by decide⟩
  | obj xs => cases xs with
    | nil => exact ⟨'{', _, rfl, by decide⟩
    | cons k v tl => exact ⟨'{', _, rfl, by decide⟩

/-- The head character of serialized array elements starts a value. -/
theorem ppA_head (j : Json) (tl : JsonList) :
    ∃ c t, ppA (.cons j tl) = c :: t ∧ vStart c = true := by
  obtain ⟨c, t, hct, hc⟩ := ppV_head j
  cases tl with
  | nil => exact ⟨c, t, by rw [show ppA (.cons j .nil) = ppV j from rfl, hct], hc⟩
  | cons j2 tl2 =>
    refine ⟨c, t ++ ',' :: '\n' :: ppA (.cons j2 tl2), ?_, hc⟩
    rw [show ppA (.cons j (.cons j2 tl2)) = ppV j ++ ',' :: '\n' :: ppA (.cons j2 tl2)
      from rfl, hct]
    rfl

/-- The last character of a printed natural number is a digit. -/
theorem natStr_last (n : Nat) :
    ∃ c, (natStr n).getLast? = some c ∧ isDig c = true := by
  cases h : (natStr n).getLast? with
  | none =>
    rw [List.getLast?_eq_none_iff] at h
    exact absurd h (natStr_ne_nil n)
  | some c =>
    refine ⟨c, rfl, ?_⟩
    obtain ⟨l', hl⟩ := List.getLast?_eq_some_iff.mp h
    exact mem_natStr_isDig (by rw [hl]; simp)

/-- The last character of a printed integer is a digit. -/
theorem intStr_last (n : Int) :
    ∃ c, (intStr n).getLast? = some c ∧ isDig c = true := by
  by_cases hn : n < 0
  · rw [intStr, if_pos hn]
    obtain ⟨c, hc, hd⟩ := natStr_last (-n).toNat
    cases h : natStr (-n).toNat with
    | nil => exact absurd h (natStr_ne_nil _)
    | cons a t =>
      rw [h] at hc
      exact ⟨c, by rw [List.getLast?_cons_cons]; exact hc, hd⟩
  · rw [intStr, if_neg hn]
    exact natStr_last n.toNat

/-- The last character of a serialized value ends a value. -/
theorem ppV_last (d : Json) : ∃ c, (ppV d).getLast? = some c ∧ vEnd c = true := by
  cases d with
  | null => exact ⟨'l', rfl, by decide⟩
  | bool b => cases b with
    | true => exact ⟨'e', rfl, by decide⟩
    | false => exact ⟨'e', rfl, by decide⟩
  | num n =>
    obtain ⟨c, hc, hd⟩ := intStr_last n
    exact ⟨c, hc, by simp [vEnd, hd]⟩
  | str s =>
    refine ⟨'"', ?_, by decide⟩
    rw [show ppV (.str s) = ('"' :: esc s) ++ ['"'] from by
      rw [show ppV (.str s) = '"' :: (esc s ++ '"' :: []) from rfl]; simp,
      List.getLast?_concat]
  | arr xs => cases xs with
    | nil => exact ⟨']', rfl, by decide⟩
    | cons j tl =>
      refine ⟨']', ?_, by decide⟩
      rw [show ppV (.arr (.cons j tl)) =
        ('[' :: '\n' :: (ppA (.cons j tl) ++ ['\n'])) ++ [']'] from by
          rw [show ppV (.arr (.cons j tl)) =
            '[' :: '\n' :: (ppA (.cons j tl) ++ '\n' :: ']' :: []) from rfl]
          simp,
        List.getLast?_concat]
  | obj xs => cases xs with
    | nil => exact ⟨'}', rfl, by decide⟩
    | cons k v tl =>
      refine ⟨'}', ?_, by decide⟩
      rw [show ppV (.obj (.cons k v tl)) =
        ('{' :: '\n' :: (ppO (.cons k v tl) ++ ['\n'])) ++ ['}'] from by
          rw [show ppV (.obj (.cons k v tl)) =
            '{' :: '\n' :: (ppO (.cons k v tl) ++ '\n' :: '}' :: []) from rfl]
          simp,
        List.getLast?_concat]

/-! ## Whitespace-skip lemmas -/

/-- Here `skipWs` removes a whitespace head. -/
theorem skipWs_cons_ws {c : Char} {s : Str} (h : jsonWs c = true) :
    skipWs (c :: s) = skipWs s := by
  simp [skipWs, List.dropWhile_cons, h]

/-- Here `skipWs` keeps a non-whitespace head. -/
theorem skipWs_cons_not {c : Char} {s : Str} (h : jsonWs c = false) :
    skipWs (c :: s) = c :: s := by
  simp [skipWs, List.dropWhile_cons, h]

/-- Here `skipWs` runs through an all-whitespace prefix. -/
theorem skipWs_drop_ws (pre : Str) (h : ∀ c ∈ pre, jsonWs c = true) (s : Str) :
    skipWs (pre ++ s) = skipWs s := by
  simp only [skipWs]
  exact dropWhile_append_all h s

/-- A leading whitespace run does not change `parseVal`. -/
theorem parseVal_drop_ws (pre : Str) (h : ∀ c ∈ pre, jsonWs c = true)
    (fuel : Nat) (X : Str) : parseVal fuel (pre ++ X) = parseVal fuel X := by
  cases fuel with
  | zero => rfl
  | succ f =>
    rw [parseVal.eq_def]
    conv_rhs => rw [parseVal.eq_def]
    dsimp only
    rw [skipWs_drop_ws pre h]

/-- A leading whitespace run does not change `parseArrItems`. -/
theorem parseArrItems_drop_ws (pre : Str) (h : ∀ c ∈ pre, jsonWs c = true)
    (fuel : Nat) (X : Str) : parseArrItems fuel (pre ++ X) = parseArrItems fuel X := by
  cases fuel with
  | zero => rfl
  | succ f =>
    rw [parseArrItems.eq_def]
    conv_rhs => rw [parseArrItems.eq_def]
    dsimp only
    rw [parseVal_drop_ws pre h]

/-- A leading whitespace run does not change `parseObjItems`. -/
theorem parseObjItems_drop_ws (pre : Str) (h : ∀ c ∈ pre, jsonWs c = true)
    (fuel : Nat) (X : Str) : parseObjItems fuel (pre ++ X) = parseObjItems fuel X := by
  cases fuel with
  | zero => rfl
  | succ f =>
    rw [parseObjItems.eq_def]
    conv_rhs => rw [parseObjItems.eq_def]
    dsimp only
    rw [skipWs_drop_ws pre h]

/-- Every value needs at least one unit of fuel. -/
theorem szV_pos (d : Json) : 1 ≤ szV d := by
  cases d <;> simp only [szV] <;> omega

/-- The empty continuation has no digit head. -/
theorem noDigHead_nil : noDigHead ([] : Str) := fun c hc => by simp at hc

/-- A continuation starting with a non-digit has no digit head. -/
theorem noDigHead_cons {c : Char} {t : Str} (h : isDig c = false) :
    noDigHead (c :: t) := by
  intro c' hc'
  simp only [List.head?_cons, Option.some.injEq] at hc'
  rw [← hc']
  exact h


/-- Shape of a serialized non-empty object followed by its closing line. -/
theorem ppO_shape (k : Str) (v : Json) (tl : JsonObj) (rest : Str) :
    ppO (.cons k v tl) ++ '\n' :: '}' :: rest
      = '"' :: (esc k ++ '"' :: ':' :: ' ' :: (ppV v ++ tailO tl rest)) := by
  cases tl with
  | nil =>
    rw [show ppO (.cons k v .nil) = '"' :: (esc k ++ '"' :: ':' :: ' ' :: ppV v) from rfl]
    simp [tailO]
  | cons k2 v2 tl2 =>
    rw [show ppO (.cons k v (.cons k2 v2 tl2))
      = '"' :: (esc k ++ '"' :: ':' :: ' ' :: (ppV v ++ ',' :: '\n' :: ppO (.cons k2 v2 tl2)))
      from rfl]
    simp [tailO]

/-- The object continuation never starts with a digit. -/
theorem tailO_noDigHead (tl : JsonObj) (rest : Str) : noDigHead (tailO tl rest) := by
  cases tl with
  | nil => exact noDigHead_cons (by decide)
  | cons k2 v2 tl2 => exact noDigHead_cons (by decide)


mutual
/-- Decoding a serialized value recovers it, leaving any continuation that
does not begin with a digit. -/
theorem rtV (d : Json) : ∀ (fuel : Nat) (rest : Str), szV d ≤ fuel → noDigHead rest →
    parseVal fuel (ppV d ++ rest) = some (d, rest) := by
  intro fuel rest hsz hrest
  cases fuel with
  | zero => exact absurd (le_trans (szV_pos d) hsz) (by omega)
  | succ f =>
    cases d with
    | null =>
      show parseVal (f + 1) ('n' :: 'u' :: 'l' :: 'l' :: rest) = some (.null, rest)
      rw [parseVal.eq_def]
      dsimp only
      rw [skipWs_cons_not (by decide)]
      simp
    | bool b =>
      cases b with
      | true =>
        show parseVal (f + 1) ('t' :: 'r' :: 'u' :: 'e' :: rest) = some (.bool true, rest)
        rw [parseVal.eq_def]
        dsimp only
        rw [skipWs_cons_not (by decide)]
        simp
      | false =>
        show parseVal (f + 1) ('f' :: 'a' :: 'l' :: 's' :: 'e' :: rest)
          = some (.bool false, rest)
        rw [parseVal.eq_def]
        dsimp only
        rw [skipWs_cons_not (by decide)]
        simp
    | num n =>
      obtain ⟨c, t, hct, hc⟩ := intStr_head n
      have hws : jsonWs c = false := by
        rcases hc with h | h
        · subst h; decide
        · exact (isDig_ne h).2.2.2.2.2.2.2.2.2.2.2.1
      have hchain : c ≠ 'n' ∧ c ≠ 't' ∧ c ≠ 'f' ∧ c ≠ '"' ∧ c ≠ '[' ∧ c ≠ '{' := by
        rcases hc with h | h
        · subst h
          exact ⟨by decide, by decide, by decide, by decide, by decide, by decide⟩
        · obtain ⟨h1, h2, h3, h4, h5, h6, -⟩ := isDig_ne h
          exact ⟨h1, h2, h3, h4, h5, h6⟩
      show parseVal (f + 1) (intStr n ++ rest) = some (.num n, rest)
      rw [parseVal.eq_def]
      dsimp only
      rw [hct]
      simp only [List.cons_append]
      rw [skipWs_cons_not hws]
      dsimp only
      rw [if_neg hchain.1, if_neg hchain.2.1, if_neg hchain.2.2.1, if_neg hchain.2.2.2.1,
        if_neg hchain.2.2.2.2.1, if_neg hchain.2.2.2.2.2,
        if_pos (show (c = '-' || isDig c) = true by
          rcases hc with h | h
          · simp [h]
          · simp [h])]
      rw [show c :: (t ++ rest) = intStr n ++ rest from by rw [hct]; rfl]
      rw [parseNum_intStr n hrest]
      rfl
    | str s =>
      show parseVal (f + 1) (ppV (.str s) ++ rest) = some (.str s, rest)
      rw [show ppV (.str s) ++ rest = '"' :: (esc s ++ '"' :: rest) from by
        rw [show ppV (.str s) = '"' :: (esc s ++ '"' :: []) from rfl]
        simp]
      rw [parseVal.eq_def]
      dsimp only
      rw [skipWs_cons_not (by decide)]
      dsimp only
      rw [if_neg (by decide), if_neg (by decide), if_neg (by decide), if_pos rfl]
      rw [parseStrBody_esc]
      rfl
    | arr xs =>
      cases xs with
      | nil =>
        show parseVal (f + 1) ('[' :: ']' :: rest) = some (.arr .nil, rest)
        rw [parseVal.eq_def]
        dsimp only
        rw [skipWs_cons_not (by decide)]
        dsimp only
        rw [if_neg (by decide), if_neg (by decide), if_neg (by decide), if_neg (by decide),
          if_pos rfl]
        rw [skipWs_cons_not (by decide)]
        rfl
      | cons j tl =>
        obtain ⟨c, t, hct, hc⟩ := ppA_head j tl
        have hsz' : szA (.cons j tl) ≤ f := by
          have h1 : szV (.arr (.cons j tl)) = 1 + szA (.cons j tl) := rfl
          omega
        show parseVal (f + 1) (ppV (.arr (.cons j tl)) ++ rest)
          = some (.arr (.cons j tl), rest)
        rw [show ppV (.arr (.cons j tl)) ++ rest
            = '[' :: '\n' :: (ppA (.cons j tl) ++ '\n' :: ']' :: rest) from by
          rw [show ppV (.arr (.cons j tl))
            = '[' :: '\n' :: (ppA (.cons j tl) ++ '\n' :: ']' :: []) from rfl]
          simp]
        rw [parseVal.eq_def]
        dsimp only
        rw [skipWs_cons_not (by decide)]
        dsimp only
        rw [if_neg (by decide), if_neg (by decide), if_neg (by decide), if_neg (by decide),
          if_pos rfl]
        rw [skipWs_cons_ws (by decide), hct]
        simp only [List.cons_append]
        rw [skipWs_cons_not (vStart_facts hc).1]
        have harm : parseArrItems f (c :: (t ++ '\n' :: ']' :: rest))
            = some (.cons j tl, rest) := by
          rw [show c :: (t ++ '\n' :: ']' :: rest)
              = ppA (.cons j tl) ++ '\n' :: ']' :: rest from by rw [hct]; rfl]
          exact rtA j tl f rest hsz'
        have hcne : c ≠ ']' := (vStart_facts hc).2.2.2.1
        split
        · rename_i r heq
          injection heq with h1 h2
          exact absurd h1 hcne
        · rw [harm]
          rfl
    | obj xs =>
      cases xs with
      | nil =>
        show parseVal (f + 1) ('{' :: '}' :: rest) = some (.obj .nil, rest)
        rw [parseVal.eq_def]
        dsimp only
        rw [skipWs_cons_not (by decide)]
        dsimp only
        rw [if_neg (by decide), if_neg (by decide), if_neg (by decide), if_neg (by decide),
          if_neg (by decide), if_pos rfl]
        rw [skipWs_cons_not (by decide)]
        rfl
      | cons k v tl =>
        have hsz' : szO (.cons k v tl) ≤ f := by
          have h1 : szV (.obj (.cons k v tl)) = 1 + szO (.cons k v tl) := rfl
          omega
        show parseVal (f + 1) (ppV (.obj (.cons k v tl)) ++ rest)
          = some (.obj (.cons k v tl), rest)
        rw [show ppV (.obj (.cons k v tl)) ++ rest
            = '{' :: '\n' :: (ppO (.cons k v tl) ++ '\n' :: '}' :: rest) from by
          rw [show ppV (.obj (.cons k v tl))
            = '{' :: '\n' :: (ppO (.cons k v tl) ++ '\n' :: '}' :: []) from rfl]
          simp]
        rw [parseVal.eq_def]
        dsimp only
        rw [skipWs_cons_not (by decide)]
        dsimp only
        rw [if_neg (by decide), if_neg (by decide), if_neg (by decide), if_neg (by decide),
          if_neg (by decide), if_pos rfl]
        rw [skipWs_cons_ws (by decide)]
        rw [show ppO (.cons k v tl) ++ '\n' :: '}' :: rest
            = '"' :: (esc k ++ '"' :: ':' :: ' ' :: (ppV v ++ tailO tl rest)) from ppO_shape k v tl rest]
        rw [skipWs_cons_not (by decide)]
        split
        · rename_i r heq
          injection heq with h1 h2
          exact absurd h1 (by decide)
        · rw [show parseObjItems f ('"' :: (esc k ++ '"' :: ':' :: ' ' :: (ppV v ++ tailO tl rest)))
              = parseObjItems f (ppO (.cons k v tl) ++ '\n' :: '}' :: rest) from by
            rw [ppO_shape k v tl rest]]
          rw [rtO k v tl f rest hsz']
          rfl
termination_by sizeOf d
theorem rtA (j : Json) (tl : JsonList) : ∀ (fuel : Nat) (rest : Str),
    szA (.cons j tl) ≤ fuel →
    parseArrItems fuel (ppA (.cons j tl) ++ '\n' :: ']' :: rest)
      = some (.cons j tl, rest) := by
  intro fuel rest hsz
  cases fuel with
  | zero => simp only [szA] at hsz; omega
  | succ f =>
    rw [parseArrItems.eq_def]
    dsimp only
    cases tl with
    | nil =>
      have hszj : szV j ≤ f := by simp only [szA, szV] at hsz; omega
      rw [show ppA (.cons j .nil) = ppV j from rfl]
      rw [rtV j f ('\n' :: ']' :: rest) hszj (noDigHead_cons (by decide))]
      simp only [Option.pure_def, Option.bind_eq_bind, Option.some_bind]
      rw [skipWs_cons_ws (by decide), skipWs_cons_not (by decide)]
      simp
    | cons j2 tl2 =>
      have hszj : szV j ≤ f := by simp only [szA] at hsz; omega
      have hsztl : szA (.cons j2 tl2) ≤ f := by simp only [szA] at hsz ⊢; omega
      rw [show ppA (.cons j (.cons j2 tl2)) ++ '\n' :: ']' :: rest
          = ppV j ++ (',' :: '\n' :: (ppA (.cons j2 tl2) ++ '\n' :: ']' :: rest)) from by
        rw [show ppA (.cons j (.cons j2 tl2))
          = ppV j ++ ',' :: '\n' :: ppA (.cons j2 tl2) from rfl]
        simp]
      rw [rtV j f _ hszj (noDigHead_cons (by decide))]
      simp only [Option.pure_def, Option.bind_eq_bind, Option.some_bind]
      rw [skipWs_cons_not (by decide)]
      split
      · rename_i r2 heq
        injection heq with h1 h2
        subst h2
        rw [show parseArrItems f ('\n' :: (ppA (.cons j2 tl2) ++ '\n' :: ']' :: rest))
            = parseArrItems f (ppA (.cons j2 tl2) ++ '\n' :: ']' :: rest) from
          parseArrItems_drop_ws ['\n'] (by decide) f _]
        rw [rtA j2 tl2 f rest hsztl]
        rfl
      · rename_i r2 heq
        injection heq with h1 h2
        exact absurd h1 (by decide)
      · rename_i hne1 hne2
        exact absurd rfl (hne1 _)
termination_by sizeOf (JsonList.cons j tl)
theorem rtO (k : Str) (v : Json) (tl : JsonObj) : ∀ (fuel : Nat) (rest : Str),
    szO (.cons k v tl) ≤ fuel →
    parseObjItems fuel (ppO (.cons k v tl) ++ '\n' :: '}' :: rest)
      = some (.cons k v tl, rest) := by
  intro fuel rest hsz
  cases fuel with
  | zero => simp only [szO] at hsz; omega
  | succ f =>
    rw [parseObjItems.eq_def]
    dsimp only
    rw [show ppO (.cons k v tl) ++ '\n' :: '}' :: rest
        = '"' :: (esc k ++ '"' :: ':' :: ' ' :: (ppV v ++ tailO tl rest)) from
      ppO_shape k v tl rest]
    rw [skipWs_cons_not (by decide)]
    split
    · rename_i r heq
      injection heq with h1 h2
      subst h2
      rw [parseStrBody_esc]
      simp only [Option.pure_def, Option.bind_eq_bind, Option.some_bind]
      rw [skipWs_cons_not (by decide)]
      split
      · rename_i r3 heq2
        injection heq2 with h3 h4
        subst h4
        have hszv : szV v ≤ f := by simp only [szO] at hsz; omega
        rw [show ' ' :: (ppV v ++ tailO tl rest) = [' '] ++ (ppV v ++ tailO tl rest) from rfl,
          parseVal_drop_ws [' '] (by decide)]
        rw [rtV v f (tailO tl rest) hszv (tailO_noDigHead tl rest)]
        simp only [Option.pure_def, Option.bind_eq_bind, Option.some_bind]
        cases tl with
        | nil =>
          rw [show tailO .nil rest = '\n' :: '}' :: rest from rfl]
          rw [skipWs_cons_ws (by decide), skipWs_cons_not (by decide)]
          simp
        | cons k2 v2 tl2 =>
          have hsztl : szO (.cons k2 v2 tl2) ≤ f := by simp only [szO] at hsz ⊢; omega
          rw [show tailO (.cons k2 v2 tl2) rest
              = ',' :: '\n' :: (ppO (.cons k2 v2 tl2) ++ '\n' :: '}' :: rest) from rfl]
          rw [skipWs_cons_not (by decide)]
          split
          · rename_i r5 heq3
            injection heq3 with h5 h6
            subst h6
            rw [show parseObjItems f ('\n' :: (ppO (.cons k2 v2 tl2) ++ '\n' :: '}' :: rest))
                = parseObjItems f (ppO (.cons k2 v2 tl2) ++ '\n' :: '}' :: rest) from
              parseObjItems_drop_ws ['\n'] (by decide) f _]
            rw [rtO k2 v2 tl2 f rest hsztl]
            rfl
          · rename_i r5 heq3
            injection heq3 with h5 h6
            exact absurd h5 (by decide)
          · rename_i hne1 hne2
            exact absurd rfl (hne1 _)
      · rename_i hne
        exact absurd rfl (hne _)
    · rename_i hne
      exact absurd rfl (hne _)
termination_by sizeOf (JsonObj.cons k v tl)
end

mutual
/-- The needed fuel is dominated by the serialized length. -/
theorem szV_le_len (d : Json) : szV d ≤ (ppV d).length := by
  cases d with
  | null => decide
  | bool b => cases b <;> decide
  | num n =>
    obtain ⟨c, t, hct, -⟩ := intStr_head n
    show szV (.num n) ≤ (intStr n).length
    rw [hct]
    simp [szV]
  | str s =>
    rw [show ppV (.str s) = '"' :: (esc s ++ '"' :: []) from rfl]
    simp [szV]
  | arr xs =>
    cases xs with
    | nil => decide
    | cons j tl =>
      have h := szA_le_len (.cons j tl)
      rw [show ppV (.arr (.cons j tl))
        = '[' :: '\n' :: (ppA (.cons j tl) ++ '\n' :: ']' :: []) from rfl]
      simp only [szV, List.length_cons, List.length_append]
      omega
  | obj xs =>
    cases xs with
    | nil => decide
    | cons k v tl =>
      have h := szO_le_len (.cons k v tl)
      rw [show ppV (.obj (.cons k v tl))
        = '{' :: '\n' :: (ppO (.cons k v tl) ++ '\n' :: '}' :: []) from rfl]
      simp only [szV, List.length_cons, List.length_append]
      omega
/-- The needed fuel is dominated by the serialized length, elements. -/
theorem szA_le_len (l : JsonList) : szA l ≤ (ppA l).length + 3 := by
  cases l with
  | nil => decide
  | cons j tl =>
    have hj := szV_le_len j
    cases tl with
    | nil =>
      rw [show ppA (.cons j .nil) = ppV j from rfl]
      simp only [szA, szV]
      omega
    | cons j2 tl2 =>
      have ht := szA_le_len (.cons j2 tl2)
      rw [show ppA (.cons j (.cons j2 tl2))
        = ppV j ++ ',' :: '\n' :: ppA (.cons j2 tl2) from rfl]
      simp only [szA] at ht
      simp only [szA, List.length_append, List.length_cons]
      omega
/-- The needed fuel is dominated by the serialized length, members. -/
theorem szO_le_len (o : JsonObj) : szO o ≤ (ppO o).length + 3 := by
  cases o with
  | nil => decide
  | cons k v tl =>
    have hv := szV_le_len v
    cases tl with
    | nil =>
      rw [show ppO (.cons k v .nil) = '"' :: (esc k ++ '"' :: ':' :: ' ' :: ppV v) from rfl]
      simp only [szO, List.length_cons, List.length_append]
      omega
    | cons k2 v2 tl2 =>
      have ht := szO_le_len (.cons k2 v2 tl2)
      rw [show ppO (.cons k v (.cons k2 v2 tl2))
        = '"' :: (esc k ++ '"' :: ':' :: ' ' :: (ppV v ++ ',' :: '\n' :: ppO (.cons k2 v2 tl2)))
        from rfl]
      simp only [szO] at ht
      simp only [szO, List.length_cons, List.length_append]
      omega
end

/-- Decoding a serialized document recovers it exactly. -/
theorem json_loads_dumps (d : Json) : json_loads (json_dumps d) = some d := by
  have h := rtV d ((ppV d).length + 1) [] (le_trans (szV_le_len d) (by omega)) noDigHead_nil
  rw [List.append_nil] at h
  show json_loads (ppV d) = some d
  unfold json_loads
  rw [h]
  rfl

/-! ## The serialized form contains no comma-newline-closer sequence -/

/-- A window whose first character is not a comma is fine. -/
theorem tripleOkF_not_comma {c3 c : Char} (h : c ≠ ',') (s : Str) :
    tripleOkF c3 c s = true := by
  match s with
  | [] => rfl
  | [d] => rfl
  | d :: e :: t => simp [tripleOkF, h]

/-- A window whose second character is not a newline is fine. -/
theorem tripleOkF_not_nl {c3 c : Char} {s : Str} (h : s.head? ≠ some '\n') :
    tripleOkF c3 c s = true := by
  match s with
  | [] => rfl
  | [d] => rfl
  | d :: e :: t =>
    have : d ≠ '\n' := by simpa using h
    simp [tripleOkF, this]

/-- A window whose third character is not the closer is fine. -/
theorem tripleOkF_not_c3 {c3 c d e : Char} {t : Str} (h : e ≠ c3) :
    tripleOkF c3 c (d :: e :: t) = true := by
  simp [tripleOkF, h]

/-- The window check ignores everything after the second character. -/
theorem tripleOkF_window {c3 c d e : Char} (x y : Str) :
    tripleOkF c3 c (d :: e :: x) = tripleOkF c3 c (d :: e :: y) := rfl

/-- Prepending a comma-free block preserves cleanliness. -/
theorem cleanFor_append_noComma {c3 : Char} {z : Str} (hz : ∀ c ∈ z, c ≠ ',')
    {w : Str} (hw : cleanFor c3 w = true) : cleanFor c3 (z ++ w) = true := by
  induction z with
  | nil => simpa using hw
  | cons c z' ih =>
    show (tripleOkF c3 c (z' ++ w) && cleanFor c3 (z' ++ w)) = true
    rw [tripleOkF_not_comma (hz c (by simp)), ih (fun d hd => hz d (by simp [hd])),
      Bool.and_self]

/-- Prepending a newline-free block preserves cleanliness, provided the
continuation does not begin with a newline. -/
theorem cleanFor_append_noNl {c3 : Char} {z : Str} (hz : '\n' ∉ z)
    {w : Str} (hwh : w.head? ≠ some '\n') (hw : cleanFor c3 w = true) :
    cleanFor c3 (z ++ w) = true := by
  induction z with
  | nil => simpa using hw
  | cons c z' ih =>
    show (tripleOkF c3 c (z' ++ w) && cleanFor c3 (z' ++ w)) = true
    have hz' : '\n' ∉ z' := fun hmem => hz (by simp [hmem])
    have hok : tripleOkF c3 c (z' ++ w) = true := by
      cases z' with
      | nil => exact tripleOkF_not_nl (by simpa using hwh)
      | cons d t =>
        refine tripleOkF_not_nl ?_
        have : d ≠ '\n' := fun e => hz (by simp [e])
        simpa using this
    rw [hok, ih hz', Bool.and_self]

/-- A hex digit is never a newline. -/
theorem hexDig_ne_nl {k : Nat} (h : k < 16) : hexDig k ≠ '\n' := by
  interval_cases k <;> decide

/-- The escape of one character contains no raw newline. -/
theorem nl_not_mem_escChar (c : Char) : '\n' ∉ escChar c := by
  by_cases h1 : c = '"'
  · subst h1; decide
  · by_cases h2 : c = '\\'
    · subst h2; decide
    · by_cases h3 : c = '\n'
      · subst h3; decide
      · by_cases h4 : c = '\r'
        · subst h4; decide
        · by_cases h5 : c = '\t'
          · subst h5; decide
          · by_cases h6 : c = Char.ofNat 8
            · subst h6; decide
            · by_cases h7 : c = Char.ofNat 12
              · subst h7; decide
              · by_cases h8 : c.toNat < 32
                · rw [escChar, if_neg h1, if_neg h2, if_neg h3, if_neg h4, if_neg h5,
                    if_neg h6, if_neg h7, if_pos h8]
                  intro hmem
                  simp only [List.mem_cons, List.not_mem_nil, or_false] at hmem
                  rcases hmem with h | h | h | h | h | h
                  · exact absurd h.symm (by decide)
                  · exact absurd h.symm (by decide)
                  · exact absurd h.symm (by decide)
                  · exact absurd h.symm (by decide)
                  · exact absurd h.symm (hexDig_ne_nl (by omega))
                  · exact absurd h.symm (hexDig_ne_nl (Nat.mod_lt _ (by norm_num)))
                · rw [escChar, if_neg h1, if_neg h2, if_neg h3, if_neg h4, if_neg h5,
                    if_neg h6, if_neg h7, if_neg h8]
                  simpa using fun e => h3 e.symm

/-- An escaped string contains no raw newline. -/
theorem nl_not_mem_esc (s : Str) : '\n' ∉ esc s := by
  induction s with
  | nil => simp [esc]
  | cons c t ih =>
    show '\n' ∉ escChar c ++ esc t
    simp only [List.mem_append]
    rintro (h | h)
    · exact nl_not_mem_escChar c h
    · exact ih h

/-- Every character of a printed integer is a digit or the minus sign. -/
theorem intStr_no_comma {n : Int} {c : Char} (h : c ∈ intStr n) : c ≠ ',' := by
  rw [intStr] at h
  by_cases hn : n < 0
  · rw [if_pos hn] at h
    simp only [List.mem_cons] at h
    rcases h with h | h
    · subst h; decide
    · exact (isDig_ne (mem_natStr_isDig h)).2.2.2.2.2.2.2.2.2.1
  · rw [if_neg hn] at h
    exact (isDig_ne (mem_natStr_isDig h)).2.2.2.2.2.2.2.2.2.1


/-- A serialized non-empty object member list starts with a quote. -/
theorem ppO_cons_head (k : Str) (v : Json) (tl : JsonObj) :
    ppO (.cons k v tl) = '"' :: ppOtail k v tl := by
  cases tl <;> rfl

mutual
/-- A serialized value prepended to a clean continuation stays clean. -/
theorem cleanV (c3 : Char) (hc3 : c3 = '}' ∨ c3 = ']') (d : Json) :
    ∀ w : Str, cleanFor c3 w = true → cleanFor c3 (ppV d ++ w) = true := by
  intro w hw
  cases d with
  | null => exact cleanFor_append_noComma (by decide) hw
  | bool b => cases b with
    | true => exact cleanFor_append_noComma (by decide) hw
    | false => exact cleanFor_append_noComma (by decide) hw
  | num n =>
    exact cleanFor_append_noComma (fun c hc => intStr_no_comma hc) hw
  | str s =>
    rw [show ppV (.str s) ++ w = '"' :: (esc s ++ ('"' :: w)) from by
      rw [show ppV (.str s) = '"' :: (esc s ++ '"' :: []) from rfl]; simp]
    show (tripleOkF c3 '"' (esc s ++ ('"' :: w)) && cleanFor c3 (esc s ++ ('"' :: w))) = true
    rw [tripleOkF_not_comma (by decide),
      cleanFor_append_noNl (nl_not_mem_esc s) (by simp)
        (show cleanFor c3 ('"' :: w) = true by
          show (tripleOkF c3 '"' w && cleanFor c3 w) = true
          rw [tripleOkF_not_comma (by decide), hw, Bool.and_self]),
      Bool.and_self]
  | arr xs =>
    cases xs with
    | nil => exact cleanFor_append_noComma (by decide) hw
    | cons j tl =>
      rw [show ppV (.arr (.cons j tl)) ++ w
          = '[' :: '\n' :: (ppA (.cons j tl) ++ ('\n' :: ']' :: w)) from by
        rw [show ppV (.arr (.cons j tl))
          = '[' :: '\n' :: (ppA (.cons j tl) ++ '\n' :: ']' :: []) from rfl]; simp]
      have hw' : cleanFor c3 ('\n' :: ']' :: w) = true := by
        show (tripleOkF c3 '\n' (']' :: w) && (tripleOkF c3 ']' w && cleanFor c3 w)) = true
        rw [tripleOkF_not_comma (by decide), tripleOkF_not_comma (by decide), hw,
          Bool.and_self, Bool.and_self]
      have hinner := cleanA c3 hc3 j tl ('\n' :: ']' :: w) hw'
      show (tripleOkF c3 '[' _ &&
        (tripleOkF c3 '\n' (ppA (.cons j tl) ++ ('\n' :: ']' :: w)) &&
          cleanFor c3 (ppA (.cons j tl) ++ ('\n' :: ']' :: w)))) = true
      rw [tripleOkF_not_comma (by decide), tripleOkF_not_comma (by decide), hinner,
        Bool.and_self, Bool.and_self]
  | obj xs =>
    cases xs with
    | nil => exact cleanFor_append_noComma (by decide) hw
    | cons k v tl =>
      rw [show ppV (.obj (.cons k v tl)) ++ w
          = '{' :: '\n' :: (ppO (.cons k v tl) ++ ('\n' :: '}' :: w)) from by
        rw [show ppV (.obj (.cons k v tl))
          = '{' :: '\n' :: (ppO (.cons k v tl) ++ '\n' :: '}' :: []) from rfl]; simp]
      have hw' : cleanFor c3 ('\n' :: '}' :: w) = true := by
        show (tripleOkF c3 '\n' ('}' :: w) && (tripleOkF c3 '}' w && cleanFor c3 w)) = true
        rw [tripleOkF_not_comma (by decide), tripleOkF_not_comma (by decide), hw,
          Bool.and_self, Bool.and_self]
      have hinner := cleanO c3 hc3 k v tl ('\n' :: '}' :: w) hw'
      show (tripleOkF c3 '{' _ &&
        (tripleOkF c3 '\n' (ppO (.cons k v tl) ++ ('\n' :: '}' :: w)) &&
          cleanFor c3 (ppO (.cons k v tl) ++ ('\n' :: '}' :: w)))) = true
      rw [tripleOkF_not_comma (by decide), tripleOkF_not_comma (by decide), hinner,
        Bool.and_self, Bool.and_self]
termination_by sizeOf d
/-- Serialized array elements prepended to a clean continuation stay
clean. -/
theorem cleanA (c3 : Char) (hc3 : c3 = '}' ∨ c3 = ']') (j : Json) (tl : JsonList) :
    ∀ w : Str, cleanFor c3 w = true → cleanFor c3 (ppA (.cons j tl) ++ w) = true := by
  intro w hw
  cases tl with
  | nil =>
    rw [show ppA (.cons j .nil) = ppV j from rfl]
    exact cleanV c3 hc3 j w hw
  | cons j2 tl2 =>
    rw [show ppA (.cons j (.cons j2 tl2)) ++ w
        = ppV j ++ (',' :: '\n' :: (ppA (.cons j2 tl2) ++ w)) from by
      rw [show ppA (.cons j (.cons j2 tl2))
        = ppV j ++ ',' :: '\n' :: ppA (.cons j2 tl2) from rfl]; simp]
    obtain ⟨c0, t0, hct, hc0⟩ := ppA_head j2 tl2
    have hw' : cleanFor c3 (',' :: '\n' :: (ppA (.cons j2 tl2) ++ w)) = true := by
      show (tripleOkF c3 ',' ('\n' :: (ppA (.cons j2 tl2) ++ w)) &&
        (tripleOkF c3 '\n' (ppA (.cons j2 tl2) ++ w) &&
          cleanFor c3 (ppA (.cons j2 tl2) ++ w))) = true
      have hfirst : tripleOkF c3 ',' ('\n' :: (ppA (.cons j2 tl2) ++ w)) = true := by
        rw [hct]
        simp only [List.cons_append]
        refine tripleOkF_not_c3 ?_
        rcases hc3 with h | h
        · subst h; exact (vStart_facts hc0).2.2.1
        · subst h; exact (vStart_facts hc0).2.2.2.1
      rw [hfirst, tripleOkF_not_comma (by decide), cleanA c3 hc3 j2 tl2 w hw,
        Bool.and_self, Bool.and_self]
    exact cleanV c3 hc3 j _ hw'
termination_by sizeOf (JsonList.cons j tl)
/-- Serialized object members prepended to a clean continuation stay
clean. -/
theorem cleanO (c3 : Char) (hc3 : c3 = '}' ∨ c3 = ']') (k : Str) (v : Json) (tl : JsonObj) :
    ∀ w : Str, cleanFor c3 w = true → cleanFor c3 (ppO (.cons k v tl) ++ w) = true := by
  intro w hw
  have hval : ∀ X : Str, cleanFor c3 X = true →
      cleanFor c3 ('"' :: (esc k ++ ('"' :: ':' :: ' ' :: X))) = true := by
    intro X hX
    show (tripleOkF c3 '"' (esc k ++ ('"' :: ':' :: ' ' :: X)) &&
      cleanFor c3 (esc k ++ ('"' :: ':' :: ' ' :: X))) = true
    have hrest : cleanFor c3 ('"' :: ':' :: ' ' :: X) = true := by
      show (tripleOkF c3 '"' (':' :: ' ' :: X) &&
        (tripleOkF c3 ':' (' ' :: X) && (tripleOkF c3 ' ' X && cleanFor c3 X))) = true
      rw [tripleOkF_not_comma (by decide), tripleOkF_not_comma (by decide),
        tripleOkF_not_comma (by decide), hX, Bool.and_self, Bool.and_self, Bool.and_self]
    rw [tripleOkF_not_comma (by decide),
      cleanFor_append_noNl (nl_not_mem_esc k) (by simp) hrest, Bool.and_self]
  cases tl with
  | nil =>
    rw [show ppO (.cons k v .nil) ++ w
        = '"' :: (esc k ++ ('"' :: ':' :: ' ' :: (ppV v ++ w))) from by
      rw [show ppO (.cons k v .nil)
        = '"' :: (esc k ++ '"' :: ':' :: ' ' :: ppV v) from rfl]; simp]
    exact hval (ppV v ++ w) (cleanV c3 hc3 v w hw)
  | cons k2 v2 tl2 =>
    rw [show ppO (.cons k v (.cons k2 v2 tl2)) ++ w
        = '"' :: (esc k ++ ('"' :: ':' :: ' ' ::
            (ppV v ++ (',' :: '\n' :: (ppO (.cons k2 v2 tl2) ++ w))))) from by
      rw [show ppO (.cons k v (.cons k2 v2 tl2))
        = '"' :: (esc k ++ '"' :: ':' :: ' ' ::
            (ppV v ++ ',' :: '\n' :: ppO (.cons k2 v2 tl2))) from rfl]; simp]
    refine hval _ ?_
    refine cleanV c3 hc3 v _ ?_
    show (tripleOkF c3 ',' ('\n' :: (ppO (.cons k2 v2 tl2) ++ w)) &&
      (tripleOkF c3 '\n' (ppO (.cons k2 v2 tl2) ++ w) &&
        cleanFor c3 (ppO (.cons k2 v2 tl2) ++ w))) = true
    have hfirst : tripleOkF c3 ',' ('\n' :: (ppO (.cons k2 v2 tl2) ++ w)) = true := by
      rw [show ppO (.cons k2 v2 tl2) = '"' :: ppOtail k2 v2 tl2 from ppO_cons_head k2 v2 tl2]
      simp only [List.cons_append]
      refine tripleOkF_not_c3 ?_
      rcases hc3 with h | h
      · subst h; decide
      · subst h; decide
    rw [hfirst, tripleOkF_not_comma (by decide), cleanO c3 hc3 k2 v2 tl2 w hw,
      Bool.and_self, Bool.and_self]
termination_by sizeOf (JsonObj.cons k v tl)
end

/-- On a clean string the comma-deleting replacement is the identity. -/
theorem replaceAllGo_cleanFor {c3 : Char} (rep : Str) : ∀ (fuel : Nat) (s : Str),
    s.length ≤ fuel → cleanFor c3 s = true →
    replaceAllGo (',' :: '\n' :: c3 :: []) rep fuel s = s := by
  intro fuel
  induction fuel with
  | zero =>
    intro s hlen _
    cases s with
    | nil => rfl
    | cons c t => simp at hlen
  | succ f ih =>
    intro s hlen hs
    cases s with
    | nil => rfl
    | cons c rest =>
      by_cases hp : ((',' :: '\n' :: c3 :: []).isPrefixOf (c :: rest)) = true
      · exfalso
        obtain ⟨t', ht'⟩ := List.isPrefixOf_iff_prefix.mp hp
        simp only [List.cons_append, List.nil_append, List.cons.injEq] at ht'
        obtain ⟨hc, hrest⟩ := ht'
        subst hc
        subst hrest
        simp [cleanFor, tripleOkF] at hs
      · rw [replaceAllGo.eq_def]
        dsimp only
        rw [if_neg (by simp [hp])]
        have hs2 : cleanFor c3 rest = true := by
          rw [show cleanFor c3 (c :: rest)
            = (tripleOkF c3 c rest && cleanFor c3 rest) from rfl, Bool.and_eq_true] at hs
          exact hs.2
        rw [ih rest (by simp only [List.length_cons] at hlen; omega) hs2]

/-- Here `str.replace` leaves a clean string unchanged. -/
theorem replaceAll_cleanFor {c3 : Char} (rep s : Str) (h : cleanFor c3 s = true) :
    replaceAll (',' :: '\n' :: c3 :: []) rep s = s :=
  replaceAllGo_cleanFor rep s.length s le_rfl h

/-- Replacing over a clean block followed by exactly the pattern rewrites
only the pattern. -/
theorem replaceAllGo_insert {c3 : Char} (hc3 : c3 = '}' ∨ c3 = ']') (rep : Str) :
    ∀ (A : Str) (fuel : Nat), A.length + 1 ≤ fuel → cleanFor c3 A = true →
    replaceAllGo (',' :: '\n' :: c3 :: []) rep fuel (A ++ ',' :: '\n' :: c3 :: [])
      = A ++ rep := by
  intro A
  induction A with
  | nil =>
    intro fuel hlen hA
    cases fuel with
    | zero => simp at hlen
    | succ f =>
      simp only [List.nil_append]
      rw [replaceAllGo.eq_def]
      dsimp only
      rw [if_pos (by simp [List.isPrefixOf_iff_prefix])]
      rw [List.drop_length]
      rw [show replaceAllGo (',' :: '\n' :: c3 :: []) rep f [] = [] from by cases f <;> rfl]
      simp
  | cons c A' ih =>
    intro fuel hlen hA
    cases fuel with
    | zero => simp at hlen
    | succ f =>
      have hnp : ((',' :: '\n' :: c3 :: []).isPrefixOf
          (c :: (A' ++ ',' :: '\n' :: c3 :: []))) = false := by
        by_contra h'
        rw [Bool.not_eq_false] at h'
        obtain ⟨t', ht'⟩ := List.isPrefixOf_iff_prefix.mp h'
        simp only [List.cons_append, List.nil_append, List.cons.injEq] at ht'
        obtain ⟨hc, hrest⟩ := ht'
        cases A' with
        | nil =>
          simp only [List.nil_append, List.cons.injEq] at hrest
          exact absurd hrest.1 (by decide)
        | cons d A'' =>
          simp only [List.cons_append, List.cons.injEq] at hrest
          obtain ⟨hd, hrest2⟩ := hrest
          cases A'' with
          | nil =>
            simp only [List.nil_append, List.cons.injEq] at hrest2
            rcases hc3 with h3 | h3 <;> (subst h3; exact absurd hrest2.1 (by decide))
          | cons e A''' =>
            simp only [List.cons_append, List.cons.injEq] at hrest2
            obtain ⟨he, -⟩ := hrest2
            rw [← hc, ← hd, ← he] at hA
            simp only [cleanFor, tripleOkF, Bool.and_eq_true] at hA
            simp at hA
      simp only [List.cons_append]
      rw [replaceAllGo.eq_def]
      dsimp only
      rw [if_neg (by simp [hnp])]
      have hA2 : cleanFor c3 A' = true := by
        rw [show cleanFor c3 (c :: A')
          = (tripleOkF c3 c A' && cleanFor c3 A') from rfl, Bool.and_eq_true] at hA
        exact hA.2
      rw [ih f (by simp only [List.length_cons] at hlen; omega) hA2]

/-- Appending the comma-newline-closer of the other bracket kind keeps a
string clean. -/
theorem cleanFor_append_pat {c3 cl : Char} (hc3 : c3 = '}' ∨ c3 = ']') (hcl : cl ≠ c3)
    {A : Str} (hA : cleanFor c3 A = true) :
    cleanFor c3 (A ++ ',' :: '\n' :: cl :: []) = true := by
  induction A with
  | nil => simp [cleanFor, tripleOkF, hcl]
  | cons c A' ih =>
    have hA2 : cleanFor c3 A' = true := by
      rw [show cleanFor c3 (c :: A')
        = (tripleOkF c3 c A' && cleanFor c3 A') from rfl, Bool.and_eq_true] at hA
      exact hA.2
    show (tripleOkF c3 c (A' ++ ',' :: '\n' :: cl :: [])
      && cleanFor c3 (A' ++ ',' :: '\n' :: cl :: [])) = true
    rw [ih hA2]
    have hok : tripleOkF c3 c (A' ++ ',' :: '\n' :: cl :: []) = true := by
      cases A' with
      | nil => simp [tripleOkF]
      | cons d A'' =>
        cases A'' with
        | nil =>
          refine tripleOkF_not_c3 ?_
          rcases hc3 with h | h <;> (subst h; decide)
        | cons e A''' =>
          rw [show cleanFor c3 (c :: d :: e :: A''')
            = (tripleOkF c3 c (d :: e :: A''') && cleanFor c3 (d :: e :: A''')) from rfl,
            Bool.and_eq_true] at hA
          calc tripleOkF c3 c ((d :: e :: A''') ++ ',' :: '\n' :: cl :: [])
              = tripleOkF c3 c (d :: e :: A''') := tripleOkF_window _ _
            _ = true := hA.1
    rw [hok, Bool.and_self]

/-- Appending a newline-closer of the other bracket kind keeps a string
clean. -/
theorem cleanFor_append_close {c3 cl : Char} (hc3 : c3 = '}' ∨ c3 = ']') (hcl : cl ≠ c3)
    {A : Str} (hA : cleanFor c3 A = true) :
    cleanFor c3 (A ++ '\n' :: cl :: []) = true := by
  induction A with
  | nil => simp [cleanFor, tripleOkF]
  | cons c A' ih =>
    have hA2 : cleanFor c3 A' = true := by
      rw [show cleanFor c3 (c :: A')
        = (tripleOkF c3 c A' && cleanFor c3 A') from rfl, Bool.and_eq_true] at hA
      exact hA.2
    show (tripleOkF c3 c (A' ++ '\n' :: cl :: [])
      && cleanFor c3 (A' ++ '\n' :: cl :: [])) = true
    rw [ih hA2]
    have hok : tripleOkF c3 c (A' ++ '\n' :: cl :: []) = true := by
      cases A' with
      | nil => exact tripleOkF_not_c3 hcl
      | cons d A'' =>
        cases A'' with
        | nil =>
          refine tripleOkF_not_c3 ?_
          rcases hc3 with h | h <;> (subst h; decide)
        | cons e A''' =>
          rw [show cleanFor c3 (c :: d :: e :: A''')
            = (tripleOkF c3 c (d :: e :: A''') && cleanFor c3 (d :: e :: A''')) from rfl,
            Bool.and_eq_true] at hA
          calc tripleOkF c3 c ((d :: e :: A''') ++ '\n' :: cl :: [])
              = tripleOkF c3 c (d :: e :: A''') := tripleOkF_window _ _
            _ = true := hA.1
    rw [hok, Bool.and_self]

/-- Replacing the unique trailing pattern after a clean block. -/
theorem replaceAll_insert {c3 : Char} (hc3 : c3 = '}' ∨ c3 = ']') (rep : Str)
    {A : Str} (hA : cleanFor c3 A = true) :
    replaceAll (',' :: '\n' :: c3 :: []) rep (A ++ ',' :: '\n' :: c3 :: []) = A ++ rep := by
  refine replaceAllGo_insert hc3 rep A _ ?_ hA
  simp only [List.length_append, List.length_cons, List.length_nil]
  omega

/-- Here `pyStrip` leaves a string with non-whitespace ends unchanged. -/
theorem pyStrip_eq_self {s : Str} (h1 : ∀ c, s.head? = some c → pyWs c = false)
    (h2 : ∀ c, s.getLast? = some c → pyWs c = false) : pyStrip s = s := by
  have hd : s.dropWhile pyWs = s := by
    cases s with
    | nil => rfl
    | cons c t => rw [List.dropWhile_cons, if_neg (by simp [h1 c rfl])]
  rw [pyStrip, hd]
  have hrev : s.reverse.dropWhile pyWs = s.reverse := by
    cases hr : s.reverse with
    | nil => rfl
    | cons c t =>
      have hlast : s.getLast? = some c := by rw [← List.head?_reverse, hr]; rfl
      rw [List.dropWhile_cons, if_neg (by simp [h2 c hlast])]
  rw [hrev, List.reverse_reverse]

/-- A marker with a different first character is not a prefix. -/
theorem isPrefixOf_false_of_head {m s : Str} {a b : Char} (hm : m.head? = some a)
    (hs : s.head? = some b) (hne : a ≠ b) : m.isPrefixOf s = false := by
  cases m with
  | nil => simp at hm
  | cons c mt =>
    cases s with
    | nil => simp at hs
    | cons d st =>
      simp only [List.head?_cons, Option.some.injEq] at hm hs
      subst hm
      subst hs
      simp [List.isPrefixOf, hne]

/-- A marker with a different last character is not a suffix. -/
theorem isSuffixOf_false_of_last (m : Str) {s : Str} {a b : Char} (hm : m.getLast? = some a)
    (hs : s.getLast? = some b) (hne : a ≠ b) : m.isSuffixOf s = false := by
  rw [List.isSuffixOf]
  exact isPrefixOf_false_of_head (by rw [List.head?_reverse]; exact hm)
    (by rw [List.head?_reverse]; exact hs) hne

/-- Here `stripMarker` leaves a string with neither the marker prefix nor the
marker suffix unchanged. -/
theorem stripMarker_eq_self {marker s : Str} (h1 : marker.isPrefixOf s = false)
    (h2 : marker.isSuffixOf s = false) : stripMarker marker s = s := by
  rw [stripMarker]
  simp [h1, h2]

/-- On a string with benign ends, `clean_json_string` is just the two
replacements. -/
theorem clean_json_string_eq_replaces {s : Str} {c e : Char} (hh : s.head? = some c)
    (hcw : pyWs c = false) (hcb : c ≠ '`')
    (hl : s.getLast? = some e) (hew : pyWs e = false) (heb : e ≠ '`') (hen : e ≠ 'n') :
    clean_json_string s
      = replaceAll (',' :: '\n' :: ']' :: []) ('\n' :: ']' :: [])
          (replaceAll (',' :: '\n' :: '}' :: []) ('\n' :: '}' :: []) s) := by
  have hstrip : pyStrip s = s :=
    pyStrip_eq_self
      (fun c' h' => by rw [hh] at h'; injection h' with h''; rw [← h'']; exact hcw)
      (fun c' h' => by rw [hl] at h'; injection h' with h''; rw [← h'']; exact hew)
  have hp1 : ("```json".data).isPrefixOf s = false :=
    isPrefixOf_false_of_head (by decide) hh (fun h => hcb h.symm)
  have hs1 : ("```json".data).isSuffixOf s = false :=
    isSuffixOf_false_of_last "```json".data (by decide) hl (fun h => hen h.symm)
  have hp2 : ("```".data).isPrefixOf s = false :=
    isPrefixOf_false_of_head (by decide) hh (fun h => hcb h.symm)
  have hs2 : ("```".data).isSuffixOf s = false :=
    isSuffixOf_false_of_last "```".data (by decide) hl (fun h => heb h.symm)
  show (let c0 := pyStrip s
    let c1 := stripMarker "```json".data c0
    let c2 := stripMarker "```".data c1
    let c3 := pyStrip c2
    let c4 := replaceAll (',' :: '\n' :: '}' :: []) ('\n' :: '}' :: []) c3
    replaceAll (',' :: '\n' :: ']' :: []) ('\n' :: ']' :: []) c4) = _
  simp only [hstrip, stripMarker_eq_self hp1 hs1, stripMarker_eq_self hp2 hs2]

/-- A value-end character is neither `n` nor a backtick. -/
theorem vEnd_ne_n {c : Char} (h : vEnd c = true) : c ≠ 'n' := by
  simp only [vEnd, Bool.or_eq_true, decide_eq_true_eq, or_assoc] at h
  rcases h with h | h | h | h | h | h
  · subst h; decide
  · subst h; decide
  · subst h; decide
  · subst h; decide
  · subst h; decide
  · exact (isDig_ne h).1

/-- Two-sided cleanliness of a serialized document. -/
theorem cleanFor_dumps (d : Json) :
    cleanFor '}' (json_dumps d) = true ∧ cleanFor ']' (json_dumps d) = true := by
  constructor
  · have h := cleanV '}' (Or.inl rfl) d [] rfl
    rwa [List.append_nil] at h
  · have h := cleanV ']' (Or.inr rfl) d [] rfl
    rwa [List.append_nil] at h

/-- Cleaning a serialized document is the identity. -/
theorem clean_json_string_dumps (d : Json) :
    clean_json_string (json_dumps d) = json_dumps d := by
  obtain ⟨c, t, hct, hc⟩ := ppV_head d
  obtain ⟨e, he, hev⟩ := ppV_last d
  have hh : (json_dumps d).head? = some c := by
    show (ppV d).head? = some c
    rw [hct]
    rfl
  have hfacts := vStart_facts hc
  have hefacts := vEnd_facts hev
  rw [clean_json_string_eq_replaces hh hfacts.2.1 hfacts.2.2.2.2 he hefacts.2.2.2.1
    hefacts.2.2.2.2 (vEnd_ne_n hev)]
  rw [replaceAll_cleanFor _ _ (cleanFor_dumps d).1, replaceAll_cleanFor _ _ (cleanFor_dumps d).2]

/-- Inserting after the first newline of the reversed string. -/
theorem insRevHelper_append {z : Str} (hz : '\n' ∉ z) (w : Str) :
    insRevHelper (z ++ '\n' :: w) = z ++ '\n' :: ',' :: w := by
  induction z with
  | nil => simp [insRevHelper]
  | cons c z' ih =>
    have hcne : c ≠ '\n' := fun e => hz (by simp [e])
    show insRevHelper (c :: (z' ++ '\n' :: w)) = c :: (z' ++ '\n' :: ',' :: w)
    rw [insRevHelper, if_neg hcne, ih (fun m => hz (by simp [m]))]

/-- Inserting a comma before the last newline, when the tail after that
newline is newline-free. -/
theorem insertComma_spec {a b : Str} (h : '\n' ∉ b) :
    insertCommaBeforeLastNewline (a ++ '\n' :: b) = a ++ ',' :: '\n' :: b := by
  rw [insertCommaBeforeLastNewline]
  rw [show (a ++ '\n' :: b).reverse = b.reverse ++ '\n' :: a.reverse from by simp]
  rw [insRevHelper_append (by simpa using h)]
  simp

/-- Claim C7 (amended): the trailing-comma repair round trip on any
serialized non-empty container — insert the comma at the end of the final
element's line, clean, decode, and recover the document. -/
theorem repair_roundtrip (d : Json) (h : isNonemptyContainer d = true) :
    json_loads (clean_json_string (insertCommaBeforeLastNewline (json_dumps d)))
      = some d := by
  cases d with
  | null => simp [isNonemptyContainer] at h
  | bool b => simp [isNonemptyContainer] at h
  | num n => simp [isNonemptyContainer] at h
  | str s => simp [isNonemptyContainer] at h
  | arr xs =>
    cases xs with
    | nil => simp [isNonemptyContainer] at h
    | cons j tl =>
      have hdump : json_dumps (.arr (.cons j tl))
          = ('[' :: '\n' :: ppA (.cons j tl)) ++ '\n' :: ']' :: [] := by
        show ppV (.arr (.cons j tl)) = _
        rw [show ppV (.arr (.cons j tl))
          = '[' :: '\n' :: (ppA (.cons j tl) ++ '\n' :: ']' :: []) from rfl]
        simp
      have hA7 : cleanFor '}' ('[' :: '\n' :: ppA (.cons j tl)) = true := by
        show (tripleOkF '}' '[' ('\n' :: ppA (.cons j tl)) &&
          (tripleOkF '}' '\n' (ppA (.cons j tl)) && cleanFor '}' (ppA (.cons j tl)))) = true
        have hinner := cleanA '}' (Or.inl rfl) j tl [] rfl
        rw [List.append_nil] at hinner
        rw [tripleOkF_not_comma (by decide), tripleOkF_not_comma (by decide), hinner,
          Bool.and_self, Bool.and_self]
      have hA5 : cleanFor ']' ('[' :: '\n' :: ppA (.cons j tl)) = true := by
        show (tripleOkF ']' '[' ('\n' :: ppA (.cons j tl)) &&
          (tripleOkF ']' '\n' (ppA (.cons j tl)) && cleanFor ']' (ppA (.cons j tl)))) = true
        have hinner := cleanA ']' (Or.inr rfl) j tl [] rfl
        rw [List.append_nil] at hinner
        rw [tripleOkF_not_comma (by decide), tripleOkF_not_comma (by decide), hinner,
          Bool.and_self, Bool.and_self]
      rw [hdump, insertComma_spec (by decide)]
      have hh : (('[' :: '\n' :: ppA (.cons j tl)) ++ ',' :: '\n' :: ']' :: []).head?
          = some '[' := rfl
      have hl : (('[' :: '\n' :: ppA (.cons j tl)) ++ ',' :: '\n' :: ']' :: []).getLast?
          = some ']' := by
        rw [show ('[' :: '\n' :: ppA (.cons j tl)) ++ ',' :: '\n' :: ']' :: []
          = (('[' :: '\n' :: ppA (.cons j tl)) ++ ',' :: '\n' :: []) ++ [']'] from by simp]
        exact List.getLast?_concat _
      rw [clean_json_string_eq_replaces hh (by decide) (by decide) hl (by decide)
        (by decide) (by decide)]
      rw [replaceAll_cleanFor _ _ (cleanFor_append_pat (Or.inl rfl) (by decide) hA7)]
      rw [replaceAll_insert (Or.inr rfl) _ hA5]
      rw [← hdump]
      exact json_loads_dumps _
  | obj xs =>
    cases xs with
    | nil => simp [isNonemptyContainer] at h
    | cons k v tl =>
      have hdump : json_dumps (.obj (.cons k v tl))
          = ('{' :: '\n' :: ppO (.cons k v tl)) ++ '\n' :: '}' :: [] := by
        show ppV (.obj (.cons k v tl)) = _
        rw [show ppV (.obj (.cons k v tl))
          = '{' :: '\n' :: (ppO (.cons k v tl) ++ '\n' :: '}' :: []) from rfl]
        simp
      have hA7 : cleanFor '}' ('{' :: '\n' :: ppO (.cons k v tl)) = true := by
        show (tripleOkF '}' '{' ('\n' :: ppO (.cons k v tl)) &&
          (tripleOkF '}' '\n' (ppO (.cons k v tl)) && cleanFor '}' (ppO (.cons k v tl)))) = true
        have hinner := cleanO '}' (Or.inl rfl) k v tl [] rfl
        rw [List.append_nil] at hinner
        rw [tripleOkF_not_comma (by decide), tripleOkF_not_comma (by decide), hinner,
          Bool.and_self, Bool.and_self]
      rw [hdump, insertComma_spec (by decide)]
      have hh : (('{' :: '\n' :: ppO (.cons k v tl)) ++ ',' :: '\n' :: '}' :: []).head?
          = some '{' := rfl
      have hl : (('{' :: '\n' :: ppO (.cons k v tl)) ++ ',' :: '\n' :: '}' :: []).getLast?
          = some '}' := by
        rw [show ('{' :: '\n' :: ppO (.cons k v tl)) ++ ',' :: '\n' :: '}' :: []
          = (('{' :: '\n' :: ppO (.cons k v tl)) ++ ',' :: '\n' :: []) ++ ['}'] from by simp]
        exact List.getLast?_concat _
      rw [clean_json_string_eq_replaces hh (by decide) (by decide) hl (by decide)
        (by decide) (by decide)]
      rw [replaceAll_insert (Or.inl rfl) _ hA7]
      rw [← hdump]
      rw [replaceAll_cleanFor _ _ (cleanFor_dumps (.obj (.cons k v tl))).2]
      exact json_loads_dumps _

/-- Counterexample for C7: serializing `{"a": 1}` and inserting a trailing
comma immediately before its final closing brace yields `{\n"a": 1\n,}`;
the repair pattern (comma, newline, brace) does not match, so decoding
fails instead of recovering the document. -/
theorem trailing_comma_repair_counterexample :
    json_dumps (.obj (.cons "a".data (.num 1) .nil)) = "\x7b\n\"a\": 1\n\x7d".data ∧
    (json_dumps (.obj (.cons "a".data (.num 1) .nil))).dropLast ++ [',', '}']
      = "\x7b\n\"a\": 1\n,\x7d".data ∧
    json_loads (clean_json_string
      ((json_dumps (.obj (.cons "a".data (.num 1) .nil))).dropLast ++ [',', '}'])) = none ∧
    (none : Option Json) ≠ some (.obj (.cons "a".data (.num 1) .nil)) := by
  decide

/-- Witness for C7 (amended), at the document `{"a": 1}`: the comma placed
at the end of the final element's line is repaired away and decoding
recovers the document. -/
theorem repair_roundtrip_witness :
    json_loads (clean_json_string (insertCommaBeforeLastNewline
      (json_dumps (.obj (.cons "a".data (.num 1) .nil)))))
      = some (.obj (.cons "a".data (.num 1) .nil)) :=
  repair_roundtrip (.obj (.cons "a".data (.num 1) .nil)) (by decide)

/-- Counterexample for C10: there is no valid JSON document whose string
value contains the comma-newline-brace sequence on which cleaning followed
by decoding loses the document — serialization escapes the newline, so the
raw sequence never reaches the cleaner inside a string literal. -/
theorem clean_inside_literal_counterexample :
    ¬ ∃ d : Json, strValHasV (',' :: '\n' :: '}' :: []) d = true ∧
      json_loads (clean_json_string (json_dumps d)) ≠ some d := by
  rintro ⟨d, -, hne⟩
  exact hne (by rw [clean_json_string_dumps]; exact json_loads_dumps d)

/-- Claim C10 (amended): the comma removal of `clean_json_string` is
context-blind — on a raw string it deletes the comma even between quotes —
but in the serialized form of any document newlines inside string values
are escaped, so cleaning leaves every serialized document unchanged and
decoding recovers it exactly. -/
theorem clean_context_blind_but_harmless :
    clean_json_string "\x7b\"a\": \",\n\x7d\"\x7d".data = "\x7b\"a\": \"\n\x7d\"\x7d".data ∧
    ∀ d : Json, clean_json_string (json_dumps d) = json_dumps d ∧
      json_loads (json_dumps d) = some d :=
  ⟨by decide, fun d => ⟨clean_json_string_dumps d, json_loads_dumps d⟩⟩
